import Mathlib

/-!
Verification of the maze generator in `maze.py`.

The Python program builds a "perfect maze": a sparse grid of cells, each cell
storing only its right and bottom walls, populated by a randomized depth-first
carving procedure (`Maze._recursivePopulate`).  We give a shallow embedding of
the `Maze` class and its nested `Maze.Cell` class and prove the specification
claims about it.

Modelling conventions:
* Python `int` is `Int`.
* The sparse storage `self.__cellrows` (dict of row -> dict of col -> Cell)
  is a flat association list keyed by `(x, y)`; the bounding-box entries
  `__cellrows['min']`/`'max'` become the four `Option Int` fields
  `minX`, `minY`, `maxX`, `maxY` (a Python `None` is `none`).
* Python `Cell` objects are mutable and aliased; we key every mutation by the
  cell's coordinates and thread the whole `Maze` state explicitly.
* A call that raises a Python exception is modelled with `Except PyError`.
* `random.sample(l, 4)` on the four-element direction list yields a random
  permutation of it; we model the random source as a stream
  `sigma : Nat -> List Dir` of sampled direction lists, consumed one entry per
  `_recursivePopulate` invocation, and quantify theorems over every stream
  whose entries are permutations of the direction list.
* The recursion of `_recursivePopulate` is given explicit fuel (the Python
  recursion terminates on its own; fuel exhaustion is the artificial `none`
  result, and claims about finished runs are conditioned on a `some` result).
-/

/-- Python exceptions that the modelled code can raise. -/
inductive PyError where
  | attributeError
  | typeError
  | recursionError
deriving DecidableEq, Repr

/-- `Maze.Cell.__init__` stores coordinates, the two wall flags and the
`empty` (virtual) marker.  The back reference `self.__maze` is dropped; the
maze is passed explicitly to the methods that consult it. -/
structure Maze.Cell where
  x : Int
  y : Int
  wallBelow : Bool
  wallRight : Bool
  empty : Bool
deriving DecidableEq, Repr

/-- The `Maze` class: maximum dimensions, sparse cell storage and the
bounding box of the cells created so far (`__cellrows` min/max entries). -/
structure Maze where
  maxWidth : Int
  maxHeight : Int
  cells : List ((Int × Int) × Maze.Cell)
  minX : Option Int
  minY : Option Int
  maxX : Option Int
  maxY : Option Int
deriving DecidableEq, Repr

/-- `Maze.__init__`: an empty maze with the given maximum dimensions and an
unset (`None`) bounding box. -/
def Maze.init (maxWidth maxHeight : Int) : Maze :=
  ⟨maxWidth, maxHeight, [], none, none, none, none⟩

/-- Lookup in the sparse storage (membership test plus indexing of the
Python dict of dicts). -/
def lookupCell : List ((Int × Int) × Maze.Cell) → (Int × Int) → Option Maze.Cell
  | [], _ => none
  | e :: es, p => if e.1 = p then some e.2 else lookupCell es p

/-- `Maze.cellExists`: is a real cell stored at position `(x, y)`? -/
def Maze.cellExists (m : Maze) (x y : Int) : Bool :=
  (lookupCell m.cells (x, y)).isSome

/-- `Maze.Cell.__init__` with `empty=True`: a transient virtual cell whose
walls record whether the cell below / to the right exists in the maze. -/
def Maze.emptyCell (m : Maze) (x y : Int) : Maze.Cell :=
  ⟨x, y, m.cellExists x (y + 1), m.cellExists (x + 1) y, true⟩

/-- `Maze.getCell`: the stored cell at `(x, y)` if present, otherwise a
transient virtual cell (also for out-of-bounds coordinates). -/
def Maze.getCell (m : Maze) (x y : Int) : Maze.Cell :=
  if x < 0 ∨ m.maxWidth ≤ x then m.emptyCell x y
  else if y < 0 ∨ m.maxHeight ≤ y then m.emptyCell x y
  else
    match lookupCell m.cells (x, y) with
    | none => m.emptyCell x y
    | some c => c

/-- The attribute names the source defines on the `Maze` class (its methods
and the nested class).  Python resolves method calls by name at run time;
modelled explicitly because the source calls a method name that is not
defined (`getcell` instead of `getCell`). -/
def Maze.attributeNames : List String :=
  ["Cell", "createCell", "_recursivePopulate", "populateFrom", "cellExists", "getCell"]

/-- `Maze.Cell.hasWallRight`: the stored right-wall flag. -/
def Maze.Cell.hasWallRight (c : Maze.Cell) : Bool :=
  c.wallRight

/-- `Maze.Cell.hasWallBelow`: the stored bottom-wall flag. -/
def Maze.Cell.hasWallBelow (c : Maze.Cell) : Bool :=
  c.wallBelow

/-- `Maze.Cell.hasWallLeft`: the source executes
`self.__maze.getcell(self.x-1, self.y).hasWallRight()`.  The `Maze` class
defines `getCell`, not `getcell`, so the attribute lookup raises
`AttributeError`; the intended delegation is the dead branch. -/
def Maze.Cell.hasWallLeft (m : Maze) (c : Maze.Cell) : Except PyError Bool :=
  if "getcell" ∈ Maze.attributeNames then
    .ok (m.getCell (c.x - 1) c.y).hasWallRight
  else
    .error .attributeError

/-- `Maze.Cell.hasWallAbove`: likewise calls the missing attribute
`getcell`, so it raises `AttributeError` before the intended delegation. -/
def Maze.Cell.hasWallAbove (m : Maze) (c : Maze.Cell) : Except PyError Bool :=
  if "getcell" ∈ Maze.attributeNames then
    .ok (m.getCell c.x (c.y - 1)).hasWallBelow
  else
    .error .attributeError

/-- Clear the right-wall flag of the stored cell at `p` (the mutation
`self.__wall_right = False` on the aliased cell object). -/
def clearRight (cs : List ((Int × Int) × Maze.Cell)) (p : Int × Int) :
    List ((Int × Int) × Maze.Cell) :=
  cs.map fun e => if e.1 = p then (e.1, { e.2 with wallRight := false }) else e

/-- Clear the bottom-wall flag of the stored cell at `p`. -/
def clearBelow (cs : List ((Int × Int) × Maze.Cell)) (p : Int × Int) :
    List ((Int × Int) × Maze.Cell) :=
  cs.map fun e => if e.1 = p then (e.1, { e.2 with wallBelow := false }) else e

/-- `Maze.Cell.breakWallRight` on the cell stored at `p`: clear the flag and
report `true` when the cell is not virtual and the wall is present, else do
nothing and report `false`.  A position with no stored cell corresponds to a
virtual cell (`__empty` true), for which the guard fails. -/
def Maze.breakWallRight (m : Maze) (p : Int × Int) : Maze × Bool :=
  match lookupCell m.cells p with
  | some c =>
      if c.empty = false ∧ c.wallRight = true then
        ({ m with cells := clearRight m.cells p }, true)
      else (m, false)
  | none => (m, false)

/-- `Maze.Cell.breakWallBelow` on the cell stored at `p`. -/
def Maze.breakWallBelow (m : Maze) (p : Int × Int) : Maze × Bool :=
  match lookupCell m.cells p with
  | some c =>
      if c.empty = false ∧ c.wallBelow = true then
        ({ m with cells := clearBelow m.cells p }, true)
      else (m, false)
  | none => (m, false)

/-- `Maze.Cell.breakWallLeft`: the source executes
`self.__maze.getcell(self.x-1, self.y).breakWallRight()`; the attribute
lookup of the undefined name `getcell` raises `AttributeError` first. -/
def Maze.Cell.breakWallLeft (m : Maze) (c : Maze.Cell) : Except PyError (Maze × Bool) :=
  if "getcell" ∈ Maze.attributeNames then
    .ok (m.breakWallRight (c.x - 1, c.y))
  else
    .error .attributeError

/-- `Maze.Cell.breakWallAbove`: the source executes
`self.__maze.getcell(self.x, self.y-1).breakWallAbove()`.  The attribute
lookup of `getcell` raises `AttributeError`; even with the name corrected,
the forwarded call is `breakWallAbove` itself on the cell above, which would
recurse up the column without end (`RecursionError`), never reaching
`breakWallBelow`.  The dead branch records that divergence. -/
def Maze.Cell.breakWallAbove (m : Maze) (c : Maze.Cell) : Except PyError (Maze × Bool) :=
  if "getcell" ∈ Maze.attributeNames then
    .error .recursionError
  else
    .error .attributeError

/-- Bounding-box minimum update: `if min is None or min > v: min = v`. -/
def bumpMin (o : Option Int) (v : Int) : Option Int :=
  match o with
  | none => some v
  | some a => if v < a then some v else some a

/-- Bounding-box maximum update: `if max is None or max < v: max = v`. -/
def bumpMax (o : Option Int) (v : Int) : Option Int :=
  match o with
  | none => some v
  | some a => if a < v then some v else some a

/-- `Maze.createCell`: `None` when `(x, y)` is out of bounds; otherwise the
bounding box is first extended to include `(x, y)` (exactly as in the source,
where this happens before the existence check), then the stored cell is
returned if present, else a new real cell with both walls present is stored
and returned. -/
def Maze.createCell (m : Maze) (x y : Int) : Maze × Option Maze.Cell :=
  if x < 0 ∨ m.maxWidth ≤ x then (m, none)
  else if y < 0 ∨ m.maxHeight ≤ y then (m, none)
  else
    let m1 : Maze :=
      { m with
        minY := bumpMin m.minY y, maxY := bumpMax m.maxY y,
        minX := bumpMin m.minX x, maxX := bumpMax m.maxX x }
    match lookupCell m1.cells (x, y) with
    | some c => (m1, some c)
    | none =>
        let c : Maze.Cell := ⟨x, y, true, true, false⟩
        ({ m1 with cells := ((x, y), c) :: m1.cells }, some c)

/-- The four directions enumerated by `Maze._recursivePopulate`. -/
inductive Dir where
  | left
  | up
  | right
  | down
deriving DecidableEq, Repr

/-- The direction list built by `_recursivePopulate` before sampling. -/
def allDirs : List Dir :=
  [.left, .up, .right, .down]

/-- The neighbour coordinate paired with each direction in the source. -/
def dirTarget (d : Dir) (p : Int × Int) : Int × Int :=
  match d with
  | .left => (p.1 - 1, p.2)
  | .up => (p.1, p.2 - 1)
  | .right => (p.1 + 1, p.2)
  | .down => (p.1, p.2 + 1)

/-- The wall-breaking lambda paired with each direction in the source:
for the left / above neighbour it is the new neighbour's `breakWallRight` /
`breakWallBelow`, for the right / below neighbour it is the current cell's
own `breakWallRight` / `breakWallBelow`. -/
def dirBreak (d : Dir) (cpos tgt : Int × Int) (m : Maze) : Maze × Bool :=
  match d with
  | .left => m.breakWallRight tgt
  | .up => m.breakWallBelow tgt
  | .right => m.breakWallRight cpos
  | .down => m.breakWallBelow cpos

/-- The loop body of `Maze._recursivePopulate`, iterating over the sampled
direction list: skip a direction whose target already exists, skip it when
`createCell` returns `None` (out of bounds), otherwise break the connecting
wall and recurse into the new cell (consuming the next sampled list) before
continuing with the remaining directions.  `k` indexes the random stream;
`fuel` is an artificial bound on the total number of loop steps (the Python
recursion needs none), decremented on every processed direction and every
descent. -/
def Maze.popLoop (sigma : Nat → List Dir) :
    Nat → Nat → Maze → Int × Int → List Dir → Option (Maze × Nat)
  | 0, _, _, _, _ => none
  | _ + 1, k, m, _, [] => some (m, k)
  | fuel + 1, k, m, cpos, d :: ds =>
      if m.cellExists (dirTarget d cpos).1 (dirTarget d cpos).2 then
        Maze.popLoop sigma fuel k m cpos ds
      else
        match m.createCell (dirTarget d cpos).1 (dirTarget d cpos).2 with
        | (_, none) => Maze.popLoop sigma fuel k m cpos ds
        | (m1, some _) =>
            match Maze.popLoop sigma fuel (k + 1)
                (dirBreak d cpos (dirTarget d cpos) m1).1
                (dirTarget d cpos) (sigma k) with
            | none => none
            | some (m3, k3) => Maze.popLoop sigma fuel k3 m3 cpos ds

/-- `Maze._recursivePopulate` on the cell at `c`: sample a permutation of the
four directions (entry `sigma k` of the stream) and run the loop. -/
def Maze.recursivePopulate (sigma : Nat → List Dir) (fuel k : Nat) (m : Maze)
    (c : Int × Int) : Option (Maze × Nat) :=
  Maze.popLoop sigma fuel (k + 1) m c (sigma k)

/-- `Maze.populateFrom`: `False` when a cell already exists at `(x, y)`;
otherwise create the seed cell and carve recursively, returning `True`.
When `(x, y)` is out of bounds, `createCell` returns `None` and
`_recursivePopulate(None)` evaluates `None.x`, raising `AttributeError`. -/
def Maze.populateFrom (sigma : Nat → List Dir) (fuel k : Nat) (m : Maze)
    (x y : Int) : Option (Except PyError (Maze × Bool)) :=
  if m.cellExists x y then some (.ok (m, false))
  else
    match m.createCell x y with
    | (_, none) => some (.error .attributeError)
    | (m1, some _) =>
        (m1.recursivePopulate sigma fuel k (x, y)).map fun r => .ok (r.1, true)

/-- `Maze.Cell.__str__`: two characters for the bottom and right boundary of
the cell. -/
def Maze.Cell.str (c : Maze.Cell) : String :=
  (if c.wallBelow then "_" else " ") ++
    (if c.wallRight then "|" else if c.wallBelow then "_" else " ")

/-- Python `range(a, b)` over `Int`. -/
def intRange (a b : Int) : List Int :=
  (List.range (b - a).toNat).map fun i => a + i

/-- `Maze.__str__`: iterate rows from one above the minimum populated row and
columns from one left of the minimum populated column, concatenating cell
fragments via `getCell`.  On a maze with no cells the bounding-box entries
are still `None` and the very first expression `self.__cellrows['min'][1]-1`
raises `TypeError`. -/
def Maze.str (m : Maze) : Except PyError String :=
  match m.minY, m.maxY, m.minX, m.maxX with
  | some y0, some y1, some x0, some x1 =>
      .ok (String.join ((intRange (y0 - 1) (y1 + 1)).map fun row =>
        String.join ((intRange (x0 - 1) (x1 + 1)).map fun col =>
          (m.getCell col row).str) ++ "\n"))
  | _, _, _, _ => .error .typeError

/-! ## Derived state predicates -/

/-- The coordinates at which a cell is stored. -/
def Maze.keys (m : Maze) : List (Int × Int) :=
  m.cells.map Prod.fst

/-- Position `p` lies within the declared bounds `[0, maxWidth) x [0, maxHeight)`. -/
def Maze.inb (m : Maze) (p : Int × Int) : Prop :=
  0 ≤ p.1 ∧ p.1 < m.maxWidth ∧ 0 ≤ p.2 ∧ p.2 < m.maxHeight

instance (m : Maze) (p : Int × Int) : Decidable (m.inb p) := by
  unfold Maze.inb; infer_instance

/-- The wall on the right of position `p` has been carved away. -/
def brokenRight (m : Maze) (p : Int × Int) : Bool :=
  match lookupCell m.cells p with
  | some c => !c.wallRight
  | none => false

/-- The wall below position `p` has been carved away. -/
def brokenBelow (m : Maze) (p : Int × Int) : Bool :=
  match lookupCell m.cells p with
  | some c => !c.wallBelow
  | none => false

/-- Total number of broken walls: cleared flags over all stored cells. -/
def brokenWallCount (m : Maze) : Nat :=
  (m.cells.map fun e =>
    (if e.2.wallRight then 0 else 1) + (if e.2.wallBelow then 0 else 1)).sum

/-- Two positions are joined by a carved passage: the shared wall between
them is stored on the left / upper side and has been cleared. -/
def passageAdj (m : Maze) (p q : Int × Int) : Prop :=
  (brokenRight m p = true ∧ q = (p.1 + 1, p.2)) ∨
  (brokenRight m q = true ∧ p = (q.1 + 1, q.2)) ∨
  (brokenBelow m p = true ∧ q = (p.1, p.2 + 1)) ∨
  (brokenBelow m q = true ∧ p = (q.1, q.2 + 1))

theorem passageAdj_symm (m : Maze) : Symmetric (passageAdj m) := by
  intro p q h
  rcases h with h | h | h | h
  · exact Or.inr (Or.inl h)
  · exact Or.inl h
  · exact Or.inr (Or.inr (Or.inr h))
  · exact Or.inr (Or.inr (Or.inl h))

theorem passageAdj_irrefl (m : Maze) : Irreflexive (passageAdj m) := by
  intro p h
  rcases h with ⟨_, h⟩ | ⟨_, h⟩ | ⟨_, h⟩ | ⟨_, h⟩
  · have h1 : p.1 = p.1 + 1 := congrArg Prod.fst h
    omega
  · have h1 : p.1 = p.1 + 1 := congrArg Prod.fst h
    omega
  · have h1 : p.2 = p.2 + 1 := congrArg Prod.snd h
    omega
  · have h1 : p.2 = p.2 + 1 := congrArg Prod.snd h
    omega

/-- The passage graph of a maze state: vertices are grid positions, edges
the carved passages. -/
def passageGraph (m : Maze) : SimpleGraph (Int × Int) :=
  ⟨passageAdj m, passageAdj_symm m, passageAdj_irrefl m⟩

/-- The bounding box is set and contains `p`. -/
def boxContains (m : Maze) (p : Int × Int) : Prop :=
  (∃ a, m.minX = some a ∧ a ≤ p.1) ∧ (∃ b, m.maxX = some b ∧ p.1 ≤ b) ∧
  (∃ a, m.minY = some a ∧ a ≤ p.2) ∧ (∃ b, m.maxY = some b ∧ p.2 ≤ b)

/-- Structural invariant of every reachable maze state: keys are unique and
in bounds, stored cells are real and carry their own coordinates, a cleared
wall always points at an existing neighbour (so outer walls are intact), and
the bounding box contains every stored cell. -/
structure MazeInv (m : Maze) : Prop where
  nodup : m.keys.Nodup
  inbounds : ∀ p ∈ m.keys, m.inb p
  real : ∀ p c, lookupCell m.cells p = some c →
    c.x = p.1 ∧ c.y = p.2 ∧ c.empty = false
  wallR : ∀ p c, lookupCell m.cells p = some c → c.wallRight = false →
    m.cellExists (p.1 + 1) p.2 = true
  wallB : ∀ p c, lookupCell m.cells p = some c → c.wallBelow = false →
    m.cellExists p.1 (p.2 + 1) = true
  box : ∀ p ∈ m.keys, boxContains m p

/-- Spanning-tree count: one more stored cell than broken walls. -/
def treeCount (m : Maze) : Prop :=
  brokenWallCount m + 1 = m.cells.length

/-- All stored cells are pairwise connected through carved passages. -/
def allConnected (m : Maze) : Prop :=
  ∀ p ∈ m.keys, ∀ q ∈ m.keys, (passageGraph m).Reachable p q

/-- Every in-bounds neighbour of `p` is stored. -/
def closedAt (m : Maze) (p : Int × Int) : Prop :=
  ∀ d : Dir, m.inb (dirTarget d p) → dirTarget d p ∈ m.keys

/-- Broken walls are never un-broken from one state to the next. -/
def brokenMono (m m' : Maze) : Prop :=
  ∀ p, (brokenRight m p = true → brokenRight m' p = true) ∧
    (brokenBelow m p = true → brokenBelow m' p = true)

/-! ## Lookup and update lemmas -/

theorem lookupCell_eq_none (cs : List ((Int × Int) × Maze.Cell)) (p : Int × Int) :
    lookupCell cs p = none ↔ p ∉ cs.map Prod.fst := by
  induction cs with
  | nil => simp [lookupCell]
  | cons e es ih =>
      simp only [lookupCell, List.map_cons, List.mem_cons]
      by_cases h : e.1 = p
      · simp [h]
      · rw [if_neg h, ih]
        constructor
        · intro hn hc
          rcases hc with rfl | hm
          · exact h rfl
          · exact hn hm
        · intro hn hm
          exact hn (Or.inr hm)

theorem lookupCell_mem {cs : List ((Int × Int) × Maze.Cell)} {p : Int × Int}
    {c : Maze.Cell} (h : lookupCell cs p = some c) : (p, c) ∈ cs := by
  induction cs with
  | nil => simp [lookupCell] at h
  | cons e es ih =>
      by_cases he : e.1 = p
      · simp only [lookupCell, if_pos he] at h
        have : (p, c) = e := by
          rw [← he, ← Option.some.inj h]
        exact this ▸ List.mem_cons_self e es
      · simp only [lookupCell, if_neg he] at h
        exact List.mem_cons_of_mem _ (ih h)

theorem mem_lookupCell {cs : List ((Int × Int) × Maze.Cell)} {p : Int × Int}
    {c : Maze.Cell} (hnd : (cs.map Prod.fst).Nodup) (h : (p, c) ∈ cs) :
    lookupCell cs p = some c := by
  induction cs with
  | nil => simp at h
  | cons e es ih =>
      simp only [List.map_cons, List.nodup_cons] at hnd
      rcases List.mem_cons.mp h with rfl | h'
      · simp [lookupCell]
      · have hpm : p ∈ es.map Prod.fst := List.mem_map.mpr ⟨(p, c), h', rfl⟩
        have hne : e.1 ≠ p := fun he => hnd.1 (he ▸ hpm)
        simp only [lookupCell, if_neg hne]
        exact ih hnd.2 h'

theorem lookupCell_isSome (cs : List ((Int × Int) × Maze.Cell)) (p : Int × Int) :
    (lookupCell cs p).isSome = true ↔ p ∈ cs.map Prod.fst := by
  constructor
  · intro h
    rcases ho : lookupCell cs p with _ | c
    · rw [ho] at h
      simp at h
    · exact List.mem_map.mpr ⟨(p, c), lookupCell_mem ho, rfl⟩
  · intro h
    rcases ho : lookupCell cs p with _ | c
    · exact absurd h ((lookupCell_eq_none cs p).mp ho)
    · simp

theorem cellExists_iff_mem (m : Maze) (x y : Int) :
    m.cellExists x y = true ↔ (x, y) ∈ m.keys := by
  rw [Maze.cellExists, lookupCell_isSome]
  exact Iff.rfl

theorem map_fst_clearRight (cs : List ((Int × Int) × Maze.Cell)) (p : Int × Int) :
    (clearRight cs p).map Prod.fst = cs.map Prod.fst := by
  induction cs with
  | nil => rfl
  | cons e es ih =>
      by_cases h : e.1 = p <;> simp [clearRight, h, ih] <;>
        simpa [clearRight] using ih

theorem map_fst_clearBelow (cs : List ((Int × Int) × Maze.Cell)) (p : Int × Int) :
    (clearBelow cs p).map Prod.fst = cs.map Prod.fst := by
  induction cs with
  | nil => rfl
  | cons e es ih =>
      by_cases h : e.1 = p <;> simp [clearBelow, h, ih] <;>
        simpa [clearBelow] using ih

theorem lookupCell_clearRight_self (cs : List ((Int × Int) × Maze.Cell)) (p : Int × Int) :
    lookupCell (clearRight cs p) p =
      (lookupCell cs p).map fun c => { c with wallRight := false } := by
  induction cs with
  | nil => rfl
  | cons e es ih =>
      by_cases h : e.1 = p
      · simp [clearRight, lookupCell, h]
      · simp only [clearRight, List.map_cons, if_neg h]
        rw [lookupCell, if_neg h, lookupCell, if_neg h]
        simpa [clearRight] using ih

theorem lookupCell_clearRight_ne (cs : List ((Int × Int) × Maze.Cell))
    {p q : Int × Int} (h : q ≠ p) :
    lookupCell (clearRight cs p) q = lookupCell cs q := by
  induction cs with
  | nil => rfl
  | cons e es ih =>
      by_cases he : e.1 = p
      · have : e.1 ≠ q := by rw [he]; exact fun hc => h hc.symm
        simp only [clearRight, List.map_cons, if_pos he]
        rw [lookupCell, if_neg this, lookupCell, if_neg this]
        simpa [clearRight] using ih
      · by_cases heq : e.1 = q
        · simp only [clearRight, List.map_cons, if_neg he]
          rw [lookupCell, if_pos heq, lookupCell, if_pos heq]
        · simp only [clearRight, List.map_cons, if_neg he]
          rw [lookupCell, if_neg heq, lookupCell, if_neg heq]
          simpa [clearRight] using ih

theorem lookupCell_clearBelow_self (cs : List ((Int × Int) × Maze.Cell)) (p : Int × Int) :
    lookupCell (clearBelow cs p) p =
      (lookupCell cs p).map fun c => { c with wallBelow := false } := by
  induction cs with
  | nil => rfl
  | cons e es ih =>
      by_cases h : e.1 = p
      · simp [clearBelow, lookupCell, h]
      · simp only [clearBelow, List.map_cons, if_neg h]
        rw [lookupCell, if_neg h, lookupCell, if_neg h]
        simpa [clearBelow] using ih

theorem lookupCell_clearBelow_ne (cs : List ((Int × Int) × Maze.Cell))
    {p q : Int × Int} (h : q ≠ p) :
    lookupCell (clearBelow cs p) q = lookupCell cs q := by
  induction cs with
  | nil => rfl
  | cons e es ih =>
      by_cases he : e.1 = p
      · have : e.1 ≠ q := by rw [he]; exact fun hc => h hc.symm
        simp only [clearBelow, List.map_cons, if_pos he]
        rw [lookupCell, if_neg this, lookupCell, if_neg this]
        simpa [clearBelow] using ih
      · by_cases heq : e.1 = q
        · simp only [clearBelow, List.map_cons, if_neg he]
          rw [lookupCell, if_pos heq, lookupCell, if_pos heq]
        · simp only [clearBelow, List.map_cons, if_neg he]
          rw [lookupCell, if_neg heq, lookupCell, if_neg heq]
          simpa [clearBelow] using ih

theorem clearRight_of_not_mem {cs : List ((Int × Int) × Maze.Cell)} {p : Int × Int}
    (h : p ∉ cs.map Prod.fst) : clearRight cs p = cs := by
  induction cs with
  | nil => rfl
  | cons e es ih =>
      simp only [List.map_cons, List.mem_cons] at h
      push_neg at h
      have he : e.1 ≠ p := fun hc => h.1 hc.symm
      simp only [clearRight, List.map_cons, if_neg he]
      congr 1
      exact ih h.2

theorem clearBelow_of_not_mem {cs : List ((Int × Int) × Maze.Cell)} {p : Int × Int}
    (h : p ∉ cs.map Prod.fst) : clearBelow cs p = cs := by
  induction cs with
  | nil => rfl
  | cons e es ih =>
      simp only [List.map_cons, List.mem_cons] at h
      push_neg at h
      have he : e.1 ≠ p := fun hc => h.1 hc.symm
      simp only [clearBelow, List.map_cons, if_neg he]
      congr 1
      exact ih h.2

/-- Contribution of one stored cell to the broken-wall count. -/
def wallScore (e : (Int × Int) × Maze.Cell) : Nat :=
  (if e.2.wallRight then 0 else 1) + (if e.2.wallBelow then 0 else 1)

theorem brokenWallCount_eq (m : Maze) :
    brokenWallCount m = (m.cells.map wallScore).sum := rfl

theorem sum_wallScore_clearRight {cs : List ((Int × Int) × Maze.Cell)}
    {p : Int × Int} {c : Maze.Cell} (hnd : (cs.map Prod.fst).Nodup)
    (hl : lookupCell cs p = some c) (hw : c.wallRight = true) :
    ((clearRight cs p).map wallScore).sum = (cs.map wallScore).sum + 1 := by
  induction cs with
  | nil => simp [lookupCell] at hl
  | cons e es ih =>
      simp only [List.map_cons, List.nodup_cons] at hnd
      by_cases he : e.1 = p
      · simp only [lookupCell, if_pos he] at hl
        have hc : e.2 = c := Option.some.inj hl
        have hnm : p ∉ es.map Prod.fst := he ▸ hnd.1
        simp only [clearRight, List.map_cons, if_pos he]
        rw [show List.map
          (fun e => if e.1 = p then (e.1, { e.2 with wallRight := false }) else e) es
            = clearRight es p from rfl, clearRight_of_not_mem hnm]
        simp only [List.map_cons, List.sum_cons, wallScore, hc, hw]
        simp
        omega
      · simp only [lookupCell, if_neg he] at hl
        simp only [clearRight, List.map_cons, if_neg he, List.sum_cons]
        rw [show List.map
            (fun e => if e.1 = p then (e.1, { e.2 with wallRight := false }) else e) es
              = clearRight es p from rfl,
          ih hnd.2 hl]
        omega

theorem sum_wallScore_clearBelow {cs : List ((Int × Int) × Maze.Cell)}
    {p : Int × Int} {c : Maze.Cell} (hnd : (cs.map Prod.fst).Nodup)
    (hl : lookupCell cs p = some c) (hw : c.wallBelow = true) :
    ((clearBelow cs p).map wallScore).sum = (cs.map wallScore).sum + 1 := by
  induction cs with
  | nil => simp [lookupCell] at hl
  | cons e es ih =>
      simp only [List.map_cons, List.nodup_cons] at hnd
      by_cases he : e.1 = p
      · simp only [lookupCell, if_pos he] at hl
        have hc : e.2 = c := Option.some.inj hl
        have hnm : p ∉ es.map Prod.fst := he ▸ hnd.1
        simp only [clearBelow, List.map_cons, if_pos he]
        rw [show List.map
          (fun e => if e.1 = p then (e.1, { e.2 with wallBelow := false }) else e) es
            = clearBelow es p from rfl, clearBelow_of_not_mem hnm]
        simp only [List.map_cons, List.sum_cons, wallScore, hc, hw]
        simp
        omega
      · simp only [lookupCell, if_neg he] at hl
        simp only [clearBelow, List.map_cons, if_neg he, List.sum_cons]
        rw [show List.map
            (fun e => if e.1 = p then (e.1, { e.2 with wallBelow := false }) else e) es
              = clearBelow es p from rfl,
          ih hnd.2 hl]
        omega

/-! ## Case lemmas for the primitive operations -/

theorem createCell_not_inb {m : Maze} {x y : Int} (h : ¬m.inb (x, y)) :
    m.createCell x y = (m, none) := by
  unfold Maze.inb at h
  simp only [Maze.createCell]
  split_ifs with h1 h2
  · rfl
  · rfl
  · exact absurd (by constructor <;> omega) h

/-- The bounding-box bump that `createCell` performs before the existence
check. -/
def Maze.bumpBox (m : Maze) (x y : Int) : Maze :=
  { m with
    minY := bumpMin m.minY y, maxY := bumpMax m.maxY y,
    minX := bumpMin m.minX x, maxX := bumpMax m.maxX x }

theorem createCell_exists {m : Maze} {x y : Int} {c : Maze.Cell}
    (hin : m.inb (x, y)) (hl : lookupCell m.cells (x, y) = some c) :
    m.createCell x y = (m.bumpBox x y, some c) := by
  obtain ⟨h1, h2, h3, h4⟩ := hin
  simp only [Maze.createCell]
  rw [if_neg (by omega), if_neg (by omega)]
  simp only [hl]
  rfl

theorem createCell_new {m : Maze} {x y : Int}
    (hin : m.inb (x, y)) (hl : lookupCell m.cells (x, y) = none) :
    m.createCell x y =
      ({ m.bumpBox x y with cells := ((x, y), ⟨x, y, true, true, false⟩) :: m.cells },
        some ⟨x, y, true, true, false⟩) := by
  obtain ⟨h1, h2, h3, h4⟩ := hin
  simp only [Maze.createCell]
  rw [if_neg (by omega), if_neg (by omega)]
  simp only [hl]
  rfl

theorem breakWallRight_success {m : Maze} {p : Int × Int} {c : Maze.Cell}
    (hl : lookupCell m.cells p = some c) (hemp : c.empty = false)
    (hw : c.wallRight = true) :
    m.breakWallRight p = ({ m with cells := clearRight m.cells p }, true) := by
  simp [Maze.breakWallRight, hl, hemp, hw]

theorem breakWallBelow_success {m : Maze} {p : Int × Int} {c : Maze.Cell}
    (hl : lookupCell m.cells p = some c) (hemp : c.empty = false)
    (hw : c.wallBelow = true) :
    m.breakWallBelow p = ({ m with cells := clearBelow m.cells p }, true) := by
  simp [Maze.breakWallBelow, hl, hemp, hw]

theorem bumpMin_spec (o : Option Int) (v : Int) :
    ∃ w, bumpMin o v = some w ∧ w ≤ v ∧ ∀ a, o = some a → w ≤ a := by
  match o with
  | none => exact ⟨v, rfl, le_refl v, by simp⟩
  | some a =>
      by_cases h : v < a
      · exact ⟨v, by simp [bumpMin, h], le_refl v, fun b hb => by
          cases hb; omega⟩
      · exact ⟨a, by simp [bumpMin, h], by omega, fun b hb => by
          cases hb; omega⟩

theorem bumpMax_spec (o : Option Int) (v : Int) :
    ∃ w, bumpMax o v = some w ∧ v ≤ w ∧ ∀ a, o = some a → a ≤ w := by
  match o with
  | none => exact ⟨v, rfl, le_refl v, by simp⟩
  | some a =>
      by_cases h : a < v
      · exact ⟨v, by simp [bumpMax, h], le_refl v, fun b hb => by
          cases hb; omega⟩
      · exact ⟨a, by simp [bumpMax, h], by omega, fun b hb => by
          cases hb; omega⟩

theorem boxContains_bumpBox {m : Maze} {p : Int × Int} (x y : Int)
    (h : boxContains m p) : boxContains (m.bumpBox x y) p := by
  obtain ⟨⟨a1, ha1, hle1⟩, ⟨b1, hb1, hle2⟩, ⟨a2, ha2, hle3⟩, ⟨b2, hb2, hle4⟩⟩ := h
  obtain ⟨w1, hw1, _, hwa1⟩ := bumpMin_spec m.minX x
  obtain ⟨w2, hw2, _, hwa2⟩ := bumpMax_spec m.maxX x
  obtain ⟨w3, hw3, _, hwa3⟩ := bumpMin_spec m.minY y
  obtain ⟨w4, hw4, _, hwa4⟩ := bumpMax_spec m.maxY y
  refine ⟨⟨w1, hw1, ?_⟩, ⟨w2, hw2, ?_⟩, ⟨w3, hw3, ?_⟩, ⟨w4, hw4, ?_⟩⟩
  · exact le_trans (hwa1 a1 ha1) hle1
  · exact le_trans hle2 (hwa2 b1 hb1)
  · exact le_trans (hwa3 a2 ha2) hle3
  · exact le_trans hle4 (hwa4 b2 hb2)

theorem boxContains_bumpBox_self (m : Maze) (x y : Int) :
    boxContains (m.bumpBox x y) (x, y) := by
  obtain ⟨w1, hw1, hv1, _⟩ := bumpMin_spec m.minX x
  obtain ⟨w2, hw2, hv2, _⟩ := bumpMax_spec m.maxX x
  obtain ⟨w3, hw3, hv3, _⟩ := bumpMin_spec m.minY y
  obtain ⟨w4, hw4, hv4, _⟩ := bumpMax_spec m.maxY y
  exact ⟨⟨w1, hw1, hv1⟩, ⟨w2, hw2, hv2⟩, ⟨w3, hw3, hv3⟩, ⟨w4, hw4, hv4⟩⟩

/-! ## Monotone evolution of states -/

/-- What every carving step preserves: the dimensions are fixed, stored
cells are never removed, and broken walls stay broken. -/
structure StepMono (m m' : Maze) : Prop where
  width : m'.maxWidth = m.maxWidth
  height : m'.maxHeight = m.maxHeight
  keys : ∀ p ∈ m.keys, p ∈ m'.keys
  broken : brokenMono m m'

theorem StepMono.refl (m : Maze) : StepMono m m :=
  ⟨rfl, rfl, fun _ h => h, fun _ => ⟨id, id⟩⟩

theorem stepMono_trans {m1 m2 m3 : Maze} (h : StepMono m1 m2)
    (h' : StepMono m2 m3) : StepMono m1 m3 := by
  refine ⟨h'.width.trans h.width, h'.height.trans h.height,
    fun p hp => h'.keys p (h.keys p hp), fun p => ⟨?_, ?_⟩⟩
  · exact fun hb => (h'.broken p).1 ((h.broken p).1 hb)
  · exact fun hb => (h'.broken p).2 ((h.broken p).2 hb)

theorem StepMono.inb_iff {m m' : Maze} (h : StepMono m m') (p : Int × Int) :
    m'.inb p ↔ m.inb p := by
  unfold Maze.inb
  rw [h.width, h.height]

theorem StepMono.cellExists {m m' : Maze} (h : StepMono m m') {x y : Int}
    (he : m.cellExists x y = true) : m'.cellExists x y = true := by
  rw [cellExists_iff_mem] at he ⊢
  exact h.keys _ he

theorem StepMono.closedAt {m m' : Maze} (h : StepMono m m') {p : Int × Int}
    (hc : closedAt m p) : closedAt m' p := by
  intro d hd
  exact h.keys _ (hc d ((h.inb_iff _).mp hd))

theorem passageGraph_le {m m' : Maze} (h : brokenMono m m') :
    passageGraph m ≤ passageGraph m' := by
  intro p q hadj
  rcases hadj with ⟨hb, he⟩ | ⟨hb, he⟩ | ⟨hb, he⟩ | ⟨hb, he⟩
  · exact Or.inl ⟨(h p).1 hb, he⟩
  · exact Or.inr (Or.inl ⟨(h q).1 hb, he⟩)
  · exact Or.inr (Or.inr (Or.inl ⟨(h p).2 hb, he⟩))
  · exact Or.inr (Or.inr (Or.inr ⟨(h q).2 hb, he⟩))

/-! ## Generic graph lemmas

Adding a pendant edge (one endpoint previously isolated) to an acyclic graph
keeps it acyclic; this is the shape of every carving step. -/

theorem exists_last_edge {V : Type} {G : SimpleGraph V} {a b : V}
    (q : G.Walk a b) (hq : 0 < q.length) :
    ∃ y, G.Adj y b ∧ s(y, b) ∈ q.edges := by
  induction q with
  | nil => simp at hq
  | cons h p ih =>
      cases p with
      | nil => exact ⟨_, h, by simp⟩
      | cons h' p' =>
          obtain ⟨y, hy, hmem⟩ := ih (by simp)
          refine ⟨y, hy, ?_⟩
          simp only [SimpleGraph.Walk.edges_cons] at hmem ⊢
          exact List.mem_cons_of_mem _ hmem

theorem cycle_two_adj {V : Type} {G : SimpleGraph V} {u : V} {c : G.Walk u u}
    (hc : c.IsCycle) : ∃ x y : V, x ≠ y ∧ G.Adj u x ∧ G.Adj u y := by
  cases c with
  | nil => exact absurd hc SimpleGraph.Walk.IsCycle.not_of_nil
  | cons h q =>
      rw [SimpleGraph.Walk.cons_isCycle_iff] at hc
      obtain ⟨hpath, hedge⟩ := hc
      have hlen : 0 < q.length := by
        cases q with
        | nil => exact absurd h (G.loopless _)
        | cons h' q' => simp
      obtain ⟨y, hy, hmem⟩ := exists_last_edge q hlen
      refine ⟨_, y, ?_, h, hy.symm⟩
      intro hxy
      subst hxy
      apply hedge
      rw [Sym2.eq_swap]
      exact hmem

theorem isAcyclic_of_no_adj {V : Type} {G : SimpleGraph V}
    (h : ∀ a b, ¬G.Adj a b) : G.IsAcyclic := by
  intro v c hc
  cases c with
  | nil => exact SimpleGraph.Walk.IsCycle.not_of_nil hc
  | cons hadj q => exact h _ _ hadj

theorem isAcyclic_add_pendant {V : Type} [DecidableEq V] {G G' : SimpleGraph V} {t w : V}
    (htw : t ≠ w) (hiso : ∀ z, ¬G.Adj w z)
    (hG' : ∀ a b, G'.Adj a b ↔ G.Adj a b ∨ (a = t ∧ b = w) ∨ (a = w ∧ b = t))
    (hac : G.IsAcyclic) : G'.IsAcyclic := by
  intro v c hc
  by_cases hw : w ∈ c.support
  · have hc' := hc.rotate hw
    obtain ⟨x, y, hxy, hx, hy⟩ := cycle_two_adj hc'
    have hxt : x = t := by
      rcases (hG' w x).mp hx with hg | ⟨hwt, _⟩ | ⟨_, hbt⟩
      · exact absurd hg (hiso x)
      · exact absurd hwt.symm htw
      · exact hbt
    have hyt : y = t := by
      rcases (hG' w y).mp hy with hg | ⟨hwt, _⟩ | ⟨_, hbt⟩
      · exact absurd hg (hiso y)
      · exact absurd hwt.symm htw
      · exact hbt
    exact hxy (hxt.trans hyt.symm)
  · have hedges : ∀ e ∈ c.edges, e ∈ G.edgeSet := by
      intro e
      induction e using Sym2.ind with
      | _ a b =>
          intro he
          have hadj : G'.Adj a b := c.adj_of_mem_edges he
          have ha : a ∈ c.support := SimpleGraph.Walk.fst_mem_support_of_mem_edges c he
          have hb : b ∈ c.support := SimpleGraph.Walk.snd_mem_support_of_mem_edges c he
          rcases (hG' a b).mp hadj with hg | ⟨_, hbw⟩ | ⟨haw, _⟩
          · exact (SimpleGraph.mem_edgeSet G).mpr hg
          · exact absurd (hbw ▸ hb) hw
          · exact absurd (haw ▸ ha) hw
    exact hac (c.transfer G hedges) (hc.transfer hedges)

/-! ## Characterizations of broken walls and passage edges under updates -/

theorem brokenRight_eq_true_iff (m : Maze) (p : Int × Int) :
    brokenRight m p = true ↔
      ∃ c, lookupCell m.cells p = some c ∧ c.wallRight = false := by
  unfold brokenRight
  rcases h : lookupCell m.cells p with _ | c
  · simp
  · simp [h]

theorem brokenBelow_eq_true_iff (m : Maze) (p : Int × Int) :
    brokenBelow m p = true ↔
      ∃ c, lookupCell m.cells p = some c ∧ c.wallBelow = false := by
  unfold brokenBelow
  rcases h : lookupCell m.cells p with _ | c
  · simp
  · simp [h]

theorem boxContains_of_fields {m m' : Maze} {p : Int × Int}
    (h1 : m'.minX = m.minX) (h2 : m'.maxX = m.maxX)
    (h3 : m'.minY = m.minY) (h4 : m'.maxY = m.maxY)
    (h : boxContains m p) : boxContains m' p := by
  obtain ⟨⟨a1, ha1, hl1⟩, ⟨b1, hb1, hl2⟩, ⟨a2, ha2, hl3⟩, ⟨b2, hb2, hl4⟩⟩ := h
  exact ⟨⟨a1, h1 ▸ ha1, hl1⟩, ⟨b1, h2 ▸ hb1, hl2⟩,
    ⟨a2, h3 ▸ ha2, hl3⟩, ⟨b2, h4 ▸ hb2, hl4⟩⟩

theorem cellExists_of_keys_eq {m m' : Maze} (h : m'.keys = m.keys) (x y : Int) :
    m'.cellExists x y = m.cellExists x y := by
  rcases hb : m.cellExists x y
  · rcases hb' : m'.cellExists x y
    · rfl
    · rw [cellExists_iff_mem, h, ← cellExists_iff_mem] at hb'
      rw [hb'] at hb
      exact hb
  · rw [cellExists_iff_mem, ← h, ← cellExists_iff_mem] at hb
    exact hb

/-- A position with no stored cell is isolated in the passage graph. -/
theorem not_passageAdj_of_none {m : Maze} (hinv : MazeInv m) {p : Int × Int}
    (hp : lookupCell m.cells p = none) (z : Int × Int) : ¬passageAdj m p z := by
  intro h
  have hnotmem : ¬m.cellExists p.1 p.2 = true := by
    unfold Maze.cellExists
    rw [show ((p.1 : Int), (p.2 : Int)) = p from rfl, hp]
    simp
  rcases h with ⟨hb, he⟩ | ⟨hb, he⟩ | ⟨hb, he⟩ | ⟨hb, he⟩
  · rw [brokenRight_eq_true_iff] at hb
    obtain ⟨c, hc, _⟩ := hb
    rw [hp] at hc
    cases hc
  · rw [brokenRight_eq_true_iff] at hb
    obtain ⟨c, hc, hw⟩ := hb
    have := hinv.wallR z c hc hw
    apply hnotmem
    rw [he]
    exact this
  · rw [brokenBelow_eq_true_iff] at hb
    obtain ⟨c, hc, _⟩ := hb
    rw [hp] at hc
    cases hc
  · rw [brokenBelow_eq_true_iff] at hb
    obtain ⟨c, hc, hw⟩ := hb
    have := hinv.wallB z c hc hw
    apply hnotmem
    rw [he]
    exact this

theorem brokenRight_clear_self {m : Maze} {p : Int × Int} {c : Maze.Cell}
    (hl : lookupCell m.cells p = some c) :
    brokenRight { m with cells := clearRight m.cells p } p = true := by
  unfold brokenRight
  show (match lookupCell (clearRight m.cells p) p with
    | some c => !c.wallRight
    | none => false) = true
  rw [lookupCell_clearRight_self, hl]
  rfl

theorem brokenBelow_clear_self {m : Maze} {p : Int × Int} {c : Maze.Cell}
    (hl : lookupCell m.cells p = some c) :
    brokenBelow { m with cells := clearBelow m.cells p } p = true := by
  unfold brokenBelow
  show (match lookupCell (clearBelow m.cells p) p with
    | some c => !c.wallBelow
    | none => false) = true
  rw [lookupCell_clearBelow_self, hl]
  rfl

theorem brokenRight_clearRight_ne {m : Maze} {p q : Int × Int} (h : q ≠ p) :
    brokenRight { m with cells := clearRight m.cells p } q = brokenRight m q := by
  unfold brokenRight
  show (match lookupCell (clearRight m.cells p) q with
    | some c => !c.wallRight
    | none => false) = _
  rw [lookupCell_clearRight_ne _ h]

theorem brokenBelow_clearBelow_ne {m : Maze} {p q : Int × Int} (h : q ≠ p) :
    brokenBelow { m with cells := clearBelow m.cells p } q = brokenBelow m q := by
  unfold brokenBelow
  show (match lookupCell (clearBelow m.cells p) q with
    | some c => !c.wallBelow
    | none => false) = _
  rw [lookupCell_clearBelow_ne _ h]

theorem brokenBelow_clearRight (m : Maze) (p q : Int × Int) :
    brokenBelow { m with cells := clearRight m.cells p } q = brokenBelow m q := by
  unfold brokenBelow
  show (match lookupCell (clearRight m.cells p) q with
    | some c => !c.wallBelow
    | none => false) = _
  by_cases h : q = p
  · subst h
    rw [lookupCell_clearRight_self]
    rcases hl : lookupCell m.cells q with _ | c <;> simp
  · rw [lookupCell_clearRight_ne _ h]

theorem brokenRight_clearBelow (m : Maze) (p q : Int × Int) :
    brokenRight { m with cells := clearBelow m.cells p } q = brokenRight m q := by
  unfold brokenRight
  show (match lookupCell (clearBelow m.cells p) q with
    | some c => !c.wallRight
    | none => false) = _
  by_cases h : q = p
  · subst h
    rw [lookupCell_clearBelow_self]
    rcases hl : lookupCell m.cells q with _ | c <;> simp
  · rw [lookupCell_clearBelow_ne _ h]

theorem brokenRight_clearRight_iff {m : Maze} {p : Int × Int} {c : Maze.Cell}
    (hl : lookupCell m.cells p = some c) (q : Int × Int) :
    brokenRight { m with cells := clearRight m.cells p } q = true ↔
      q = p ∨ brokenRight m q = true := by
  by_cases h : q = p
  · subst h
    simp [brokenRight_clear_self hl]
  · rw [brokenRight_clearRight_ne h]
    simp [h]

theorem brokenBelow_clearBelow_iff {m : Maze} {p : Int × Int} {c : Maze.Cell}
    (hl : lookupCell m.cells p = some c) (q : Int × Int) :
    brokenBelow { m with cells := clearBelow m.cells p } q = true ↔
      q = p ∨ brokenBelow m q = true := by
  by_cases h : q = p
  · subst h
    simp [brokenBelow_clear_self hl]
  · rw [brokenBelow_clearBelow_ne h]
    simp [h]

theorem passageAdj_clearRight_iff {m : Maze} {p : Int × Int} {c : Maze.Cell}
    (hl : lookupCell m.cells p = some c) (a b : Int × Int) :
    passageAdj { m with cells := clearRight m.cells p } a b ↔
      passageAdj m a b ∨ (a = p ∧ b = (p.1 + 1, p.2)) ∨
        (a = (p.1 + 1, p.2) ∧ b = p) := by
  unfold passageAdj
  simp only [brokenRight_clearRight_iff hl, brokenBelow_clearRight]
  constructor
  · rintro (⟨rfl | hb, he⟩ | ⟨rfl | hb, he⟩ | ⟨hb, he⟩ | ⟨hb, he⟩)
    · exact Or.inr (Or.inl ⟨rfl, he⟩)
    · exact Or.inl (Or.inl ⟨hb, he⟩)
    · exact Or.inr (Or.inr ⟨he, rfl⟩)
    · exact Or.inl (Or.inr (Or.inl ⟨hb, he⟩))
    · exact Or.inl (Or.inr (Or.inr (Or.inl ⟨hb, he⟩)))
    · exact Or.inl (Or.inr (Or.inr (Or.inr ⟨hb, he⟩)))
  · rintro ((⟨hb, he⟩ | ⟨hb, he⟩ | ⟨hb, he⟩ | ⟨hb, he⟩) | ⟨rfl, he⟩ | ⟨he, rfl⟩)
    · exact Or.inl ⟨Or.inr hb, he⟩
    · exact Or.inr (Or.inl ⟨Or.inr hb, he⟩)
    · exact Or.inr (Or.inr (Or.inl ⟨hb, he⟩))
    · exact Or.inr (Or.inr (Or.inr ⟨hb, he⟩))
    · exact Or.inl ⟨Or.inl rfl, he⟩
    · exact Or.inr (Or.inl ⟨Or.inl rfl, he⟩)

theorem passageAdj_clearBelow_iff {m : Maze} {p : Int × Int} {c : Maze.Cell}
    (hl : lookupCell m.cells p = some c) (a b : Int × Int) :
    passageAdj { m with cells := clearBelow m.cells p } a b ↔
      passageAdj m a b ∨ (a = p ∧ b = (p.1, p.2 + 1)) ∨
        (a = (p.1, p.2 + 1) ∧ b = p) := by
  unfold passageAdj
  simp only [brokenBelow_clearBelow_iff hl, brokenRight_clearBelow]
  constructor
  · rintro (⟨hb, he⟩ | ⟨hb, he⟩ | ⟨rfl | hb, he⟩ | ⟨rfl | hb, he⟩)
    · exact Or.inl (Or.inl ⟨hb, he⟩)
    · exact Or.inl (Or.inr (Or.inl ⟨hb, he⟩))
    · exact Or.inr (Or.inl ⟨rfl, he⟩)
    · exact Or.inl (Or.inr (Or.inr (Or.inl ⟨hb, he⟩)))
    · exact Or.inr (Or.inr ⟨he, rfl⟩)
    · exact Or.inl (Or.inr (Or.inr (Or.inr ⟨hb, he⟩)))
  · rintro ((⟨hb, he⟩ | ⟨hb, he⟩ | ⟨hb, he⟩ | ⟨hb, he⟩) | ⟨rfl, he⟩ | ⟨he, rfl⟩)
    · exact Or.inl ⟨hb, he⟩
    · exact Or.inr (Or.inl ⟨hb, he⟩)
    · exact Or.inr (Or.inr (Or.inl ⟨Or.inr hb, he⟩))
    · exact Or.inr (Or.inr (Or.inr ⟨Or.inr hb, he⟩))
    · exact Or.inr (Or.inr (Or.inl ⟨Or.inl rfl, he⟩))
    · exact Or.inr (Or.inr (Or.inr ⟨Or.inl rfl, he⟩))

theorem Maze.keys_def (m : Maze) : m.keys = m.cells.map Prod.fst := rfl

/-- Everything a single carving step establishes: the new cell is stored, the
invariant is preserved, exactly one wall is broken, connectivity extends to
the new cell and the passage graph stays acyclic. -/
structure CarveStep (m m2 : Maze) (tgt : Int × Int) : Prop where
  inv : MazeInv m2
  mono : StepMono m m2
  keys : m2.keys = tgt :: m.keys
  len : m2.cells.length = m.cells.length + 1
  count : brokenWallCount m2 = brokenWallCount m + 1
  conn : allConnected m → allConnected m2
  acyc : (passageGraph m).IsAcyclic → (passageGraph m2).IsAcyclic

theorem carve_step_right {m M1 m2 : Maze} {cpos tgt POS PARTNER : Int × Int}
    (hinv : MazeInv m) (hc : cpos ∈ m.keys)
    (hnl : lookupCell m.cells tgt = none) (hin : m.inb tgt)
    (hpair : (POS = tgt ∧ PARTNER = cpos) ∨ (POS = cpos ∧ PARTNER = tgt))
    (hpp : PARTNER = (POS.1 + 1, POS.2))
    (hM1 : M1 = { m.bumpBox tgt.1 tgt.2 with
      cells := (tgt, ⟨tgt.1, tgt.2, true, true, false⟩) :: m.cells })
    (hm2 : m2 = (M1.breakWallRight POS).1) :
    CarveStep m m2 tgt := by
  subst hM1
  have htgtnm : tgt ∉ m.keys := by
    rw [Maze.keys_def]
    exact (lookupCell_eq_none _ _).mp hnl
  have hcne : cpos ≠ tgt := fun h => htgtnm (h ▸ hc)
  have hlook1t : lookupCell ((tgt, (⟨tgt.1, tgt.2, true, true, false⟩ : Maze.Cell))
      :: m.cells) tgt = some ⟨tgt.1, tgt.2, true, true, false⟩ := by
    rw [lookupCell, if_pos rfl]
  have hlook1 : ∀ q, q ≠ tgt →
      lookupCell ((tgt, (⟨tgt.1, tgt.2, true, true, false⟩ : Maze.Cell))
        :: m.cells) q = lookupCell m.cells q := by
    intro q hq
    rw [lookupCell, if_neg (fun h => hq h.symm)]
  set M1 : Maze := { m.bumpBox tgt.1 tgt.2 with
    cells := (tgt, ⟨tgt.1, tgt.2, true, true, false⟩) :: m.cells } with hM1d
  have hkeys1 : M1.keys = tgt :: m.keys := by
    rw [Maze.keys_def, Maze.keys_def]
    rfl
  have hnod1 : M1.keys.Nodup := by
    rw [hkeys1]
    exact List.nodup_cons.mpr ⟨htgtnm, hinv.nodup⟩
  have hbr1 : ∀ q, brokenRight M1 q = brokenRight m q := by
    intro q
    by_cases hq : q = tgt
    · subst hq
      unfold brokenRight
      show (match lookupCell M1.cells q with
        | some c => !c.wallRight
        | none => false) =
        (match lookupCell m.cells q with
        | some c => !c.wallRight
        | none => false)
      rw [show lookupCell M1.cells q = some ⟨q.1, q.2, true, true, false⟩ from hlook1t,
        hnl]
      rfl
    · unfold brokenRight
      show (match lookupCell M1.cells q with
        | some c => !c.wallRight
        | none => false) = _
      rw [show lookupCell M1.cells q = lookupCell m.cells q from hlook1 q hq]
  have hbb1 : ∀ q, brokenBelow M1 q = brokenBelow m q := by
    intro q
    by_cases hq : q = tgt
    · subst hq
      unfold brokenBelow
      show (match lookupCell M1.cells q with
        | some c => !c.wallBelow
        | none => false) =
        (match lookupCell m.cells q with
        | some c => !c.wallBelow
        | none => false)
      rw [show lookupCell M1.cells q = some ⟨q.1, q.2, true, true, false⟩ from hlook1t,
        hnl]
      rfl
    · unfold brokenBelow
      show (match lookupCell M1.cells q with
        | some c => !c.wallBelow
        | none => false) = _
      rw [show lookupCell M1.cells q = lookupCell m.cells q from hlook1 q hq]
  have hadj1 : ∀ a b, passageAdj M1 a b ↔ passageAdj m a b := by
    intro a b
    unfold passageAdj
    rw [hbr1, hbr1, hbb1, hbb1]
  have hG1 : passageGraph M1 = passageGraph m := by
    apply SimpleGraph.ext
    funext a b
    exact propext (hadj1 a b)
  obtain ⟨cP, hlP, hPemp, hPright, hPbelow, hPreal⟩ :
      ∃ cP, lookupCell M1.cells POS = some cP ∧ cP.empty = false ∧
        cP.wallRight = true ∧
        (cP.wallBelow = false → Maze.cellExists m POS.1 (POS.2 + 1) = true) ∧
        cP.x = POS.1 ∧ cP.y = POS.2 := by
    rcases hpair with ⟨rfl, rfl⟩ | ⟨rfl, rfl⟩
    · refine ⟨⟨POS.1, POS.2, true, true, false⟩, hlook1t, rfl, rfl, ?_, rfl, rfl⟩
      intro h
      simp at h
    · have hex : (lookupCell m.cells POS).isSome = true := by
        rw [lookupCell_isSome]
        exact hc
      rcases hl : lookupCell m.cells POS with _ | ccur
      · rw [hl] at hex
        simp at hex
      · have hreal := hinv.real POS ccur hl
        have hwr : ccur.wallRight = true := by
          by_contra hwr
          have := hinv.wallR POS ccur hl (by
            cases hccw : ccur.wallRight
            · rfl
            · exact absurd hccw hwr)
          rw [cellExists_iff_mem, ← hpp] at this
          exact htgtnm this
        refine ⟨ccur, ?_, hreal.2.2, hwr, ?_, hreal.1, hreal.2.1⟩
        · rw [hlook1 POS hcne, hl]
        · intro hb
          exact hinv.wallB POS ccur hl hb
  have hm2' : m2 = { M1 with cells := clearRight M1.cells POS } := by
    rw [hm2, breakWallRight_success hlP hPemp hPright]
  subst hm2'
  set m2 : Maze := { M1 with cells := clearRight M1.cells POS } with hm2d
  have hkeys2 : m2.keys = tgt :: m.keys := by
    rw [Maze.keys_def, show m2.cells = clearRight M1.cells POS from rfl,
      map_fst_clearRight, ← Maze.keys_def, hkeys1]
  have hlen2 : m2.cells.length = m.cells.length + 1 := by
    show (clearRight M1.cells POS).length = m.cells.length + 1
    unfold clearRight
    rw [List.length_map]
    show (_ :: m.cells).length = _
    rw [List.length_cons]
  have hcount2 : brokenWallCount m2 = brokenWallCount m + 1 := by
    rw [brokenWallCount_eq, brokenWallCount_eq]
    show ((clearRight M1.cells POS).map wallScore).sum = _
    rw [sum_wallScore_clearRight hnod1 hlP hPright]
    show ((( tgt, (⟨tgt.1, tgt.2, true, true, false⟩ : Maze.Cell)) :: m.cells).map
      wallScore).sum + 1 = _
    rw [List.map_cons, List.sum_cons]
    show wallScore (tgt, ⟨tgt.1, tgt.2, true, true, false⟩) + _ + 1 = _
    rw [show wallScore (tgt, (⟨tgt.1, tgt.2, true, true, false⟩ : Maze.Cell)) = 0
      from rfl]
    omega
  have hwidth2 : m2.maxWidth = m.maxWidth := rfl
  have hheight2 : m2.maxHeight = m.maxHeight := rfl
  have hmonokeys : ∀ q ∈ m.keys, q ∈ m2.keys := by
    intro q hq
    rw [hkeys2]
    exact List.mem_cons_of_mem _ hq
  have hbroken2 : brokenMono m m2 := by
    intro q
    constructor
    · intro hb
      exact (brokenRight_clearRight_iff hlP q).mpr (Or.inr ((hbr1 q).symm ▸ hb))
    · intro hb
      rw [show m2 = { M1 with cells := clearRight M1.cells POS } from rfl,
        brokenBelow_clearRight, hbb1]
      exact hb
  have hmono : StepMono m m2 := ⟨hwidth2, hheight2, hmonokeys, hbroken2⟩
  have hlook2P : lookupCell m2.cells POS = some { cP with wallRight := false } := by
    show lookupCell (clearRight M1.cells POS) POS = _
    rw [lookupCell_clearRight_self, hlP]
    rfl
  have hlook2ne : ∀ q, q ≠ POS → lookupCell m2.cells q = lookupCell M1.cells q := by
    intro q hq
    exact lookupCell_clearRight_ne _ hq
  have hPOSmem : POS ∈ m2.keys := by
    rw [hkeys2]
    rcases hpair with ⟨rfl, _⟩ | ⟨rfl, _⟩
    · exact List.mem_cons_self _ _
    · exact List.mem_cons_of_mem _ hc
  have hPARTmem : PARTNER ∈ m2.keys := by
    rw [hkeys2]
    rcases hpair with ⟨_, rfl⟩ | ⟨_, rfl⟩
    · exact List.mem_cons_of_mem _ hc
    · exact List.mem_cons_self _ _
  have hinv2 : MazeInv m2 := by
    refine ⟨?_, ?_, ?_, ?_, ?_, ?_⟩
    · rw [hkeys2]
      exact List.nodup_cons.mpr ⟨htgtnm, hinv.nodup⟩
    · intro p hp
      rw [hkeys2] at hp
      rcases List.mem_cons.mp hp with rfl | hp
      · exact hin
      · exact hinv.inbounds p hp
    · intro p c hl
      by_cases hq : p = POS
      · subst hq
        rw [hlook2P] at hl
        cases hl
        exact ⟨hPreal.1, hPreal.2, hPemp⟩
      · rw [hlook2ne p hq] at hl
        by_cases ht : p = tgt
        · subst ht
          rw [hlook1t] at hl
          cases hl
          exact ⟨rfl, rfl, rfl⟩
        · rw [hlook1 p ht] at hl
          exact hinv.real p c hl
    · intro p c hl hw
      rw [cellExists_iff_mem]
      by_cases hq : p = POS
      · subst hq
        rw [← hpp]
        exact hPARTmem
      · rw [hlook2ne p hq] at hl
        by_cases ht : p = tgt
        · subst ht
          rw [hlook1t] at hl
          cases hl
          cases hw
        · rw [hlook1 p ht] at hl
          have := hinv.wallR p c hl hw
          rw [cellExists_iff_mem] at this
          rw [hkeys2]
          exact List.mem_cons_of_mem _ this
    · intro p c hl hw
      rw [cellExists_iff_mem]
      by_cases hq : p = POS
      · subst hq
        rw [hlook2P] at hl
        cases hl
        have := hPbelow hw
        rw [cellExists_iff_mem] at this
        rw [hkeys2]
        exact List.mem_cons_of_mem _ this
      · rw [hlook2ne p hq] at hl
        by_cases ht : p = tgt
        · subst ht
          rw [hlook1t] at hl
          cases hl
          cases hw
        · rw [hlook1 p ht] at hl
          have := hinv.wallB p c hl hw
          rw [cellExists_iff_mem] at this
          rw [hkeys2]
          exact List.mem_cons_of_mem _ this
    · intro p hp
      have hfields : m2.minX = (m.bumpBox tgt.1 tgt.2).minX ∧
          m2.maxX = (m.bumpBox tgt.1 tgt.2).maxX ∧
          m2.minY = (m.bumpBox tgt.1 tgt.2).minY ∧
          m2.maxY = (m.bumpBox tgt.1 tgt.2).maxY := ⟨rfl, rfl, rfl, rfl⟩
      rw [hkeys2] at hp
      rcases List.mem_cons.mp hp with rfl | hp
      · exact boxContains_of_fields hfields.1 hfields.2.1 hfields.2.2.1 hfields.2.2.2
          (boxContains_bumpBox_self m p.1 p.2)
      · exact boxContains_of_fields hfields.1 hfields.2.1 hfields.2.2.1 hfields.2.2.2
          (boxContains_bumpBox tgt.1 tgt.2 (hinv.box p hp))
  have hedge : passageAdj m2 POS PARTNER := by
    exact Or.inl ⟨brokenRight_clear_self hlP, hpp⟩
  have hle : passageGraph m ≤ passageGraph m2 := passageGraph_le hbroken2
  have hconn : allConnected m → allConnected m2 := by
    intro hcm
    have hreach_tc : (passageGraph m2).Reachable tgt cpos := by
      rcases hpair with ⟨rfl, rfl⟩ | ⟨rfl, rfl⟩
      · exact SimpleGraph.Adj.reachable hedge
      · exact (SimpleGraph.Adj.reachable hedge).symm
    intro p hp q hq
    rw [hkeys2] at hp hq
    rcases List.mem_cons.mp hp with hp1 | hp2
    · rcases List.mem_cons.mp hq with hq1 | hq2
      · rw [hp1, hq1]
      · rw [hp1]
        exact hreach_tc.trans ((hcm cpos hc q hq2).mono hle)
    · rcases List.mem_cons.mp hq with hq1 | hq2
      · rw [hq1]
        exact ((hcm p hp2 cpos hc).mono hle).trans hreach_tc.symm
      · exact (hcm p hp2 q hq2).mono hle
  have hacy : (passageGraph m).IsAcyclic → (passageGraph m2).IsAcyclic := by
    intro hac
    refine isAcyclic_add_pendant (t := cpos) (w := tgt) hcne
      (fun z => not_passageAdj_of_none hinv hnl z) ?_ hac
    intro a b
    show passageAdj m2 a b ↔ _
    rw [show (passageAdj m2 a b) ↔ passageAdj M1 a b ∨
        (a = POS ∧ b = (POS.1 + 1, POS.2)) ∨ (a = (POS.1 + 1, POS.2) ∧ b = POS)
      from passageAdj_clearRight_iff hlP a b]
    rw [hadj1 a b]
    rw [show ((POS.1 + 1 : Int), (POS.2 : Int)) = PARTNER from hpp.symm]
    rcases hpair with ⟨rfl, rfl⟩ | ⟨rfl, rfl⟩
    · constructor
      · rintro (h | ⟨rfl, rfl⟩ | ⟨rfl, rfl⟩)
        · exact Or.inl h
        · exact Or.inr (Or.inr ⟨rfl, rfl⟩)
        · exact Or.inr (Or.inl ⟨rfl, rfl⟩)
      · rintro (h | ⟨rfl, rfl⟩ | ⟨rfl, rfl⟩)
        · exact Or.inl h
        · exact Or.inr (Or.inr ⟨rfl, rfl⟩)
        · exact Or.inr (Or.inl ⟨rfl, rfl⟩)
    · constructor
      · rintro (h | ⟨rfl, rfl⟩ | ⟨rfl, rfl⟩)
        · exact Or.inl h
        · exact Or.inr (Or.inl ⟨rfl, rfl⟩)
        · exact Or.inr (Or.inr ⟨rfl, rfl⟩)
      · rintro (h | ⟨rfl, rfl⟩ | ⟨rfl, rfl⟩)
        · exact Or.inl h
        · exact Or.inr (Or.inl ⟨rfl, rfl⟩)
        · exact Or.inr (Or.inr ⟨rfl, rfl⟩)
  exact ⟨hinv2, hmono, hkeys2, hlen2, hcount2, hconn, hacy⟩

theorem carve_step_below {m M1 m2 : Maze} {cpos tgt POS PARTNER : Int × Int}
    (hinv : MazeInv m) (hc : cpos ∈ m.keys)
    (hnl : lookupCell m.cells tgt = none) (hin : m.inb tgt)
    (hpair : (POS = tgt ∧ PARTNER = cpos) ∨ (POS = cpos ∧ PARTNER = tgt))
    (hpp : PARTNER = (POS.1, POS.2 + 1))
    (hM1 : M1 = { m.bumpBox tgt.1 tgt.2 with
      cells := (tgt, ⟨tgt.1, tgt.2, true, true, false⟩) :: m.cells })
    (hm2 : m2 = (M1.breakWallBelow POS).1) :
    CarveStep m m2 tgt := by
  subst hM1
  have htgtnm : tgt ∉ m.keys := by
    rw [Maze.keys_def]
    exact (lookupCell_eq_none _ _).mp hnl
  have hcne : cpos ≠ tgt := fun h => htgtnm (h ▸ hc)
  have hlook1t : lookupCell ((tgt, (⟨tgt.1, tgt.2, true, true, false⟩ : Maze.Cell))
      :: m.cells) tgt = some ⟨tgt.1, tgt.2, true, true, false⟩ := by
    rw [lookupCell, if_pos rfl]
  have hlook1 : ∀ q, q ≠ tgt →
      lookupCell ((tgt, (⟨tgt.1, tgt.2, true, true, false⟩ : Maze.Cell))
        :: m.cells) q = lookupCell m.cells q := by
    intro q hq
    rw [lookupCell, if_neg (fun h => hq h.symm)]
  set M1 : Maze := { m.bumpBox tgt.1 tgt.2 with
    cells := (tgt, ⟨tgt.1, tgt.2, true, true, false⟩) :: m.cells } with hM1d
  have hkeys1 : M1.keys = tgt :: m.keys := by
    rw [Maze.keys_def, Maze.keys_def]
    rfl
  have hnod1 : M1.keys.Nodup := by
    rw [hkeys1]
    exact List.nodup_cons.mpr ⟨htgtnm, hinv.nodup⟩
  have hbr1 : ∀ q, brokenRight M1 q = brokenRight m q := by
    intro q
    by_cases hq : q = tgt
    · subst hq
      unfold brokenRight
      show (match lookupCell M1.cells q with
        | some c => !c.wallRight
        | none => false) =
        (match lookupCell m.cells q with
        | some c => !c.wallRight
        | none => false)
      rw [show lookupCell M1.cells q = some ⟨q.1, q.2, true, true, false⟩ from hlook1t,
        hnl]
      rfl
    · unfold brokenRight
      show (match lookupCell M1.cells q with
        | some c => !c.wallRight
        | none => false) = _
      rw [show lookupCell M1.cells q = lookupCell m.cells q from hlook1 q hq]
  have hbb1 : ∀ q, brokenBelow M1 q = brokenBelow m q := by
    intro q
    by_cases hq : q = tgt
    · subst hq
      unfold brokenBelow
      show (match lookupCell M1.cells q with
        | some c => !c.wallBelow
        | none => false) =
        (match lookupCell m.cells q with
        | some c => !c.wallBelow
        | none => false)
      rw [show lookupCell M1.cells q = some ⟨q.1, q.2, true, true, false⟩ from hlook1t,
        hnl]
      rfl
    · unfold brokenBelow
      show (match lookupCell M1.cells q with
        | some c => !c.wallBelow
        | none => false) = _
      rw [show lookupCell M1.cells q = lookupCell m.cells q from hlook1 q hq]
  have hadj1 : ∀ a b, passageAdj M1 a b ↔ passageAdj m a b := by
    intro a b
    unfold passageAdj
    rw [hbr1, hbr1, hbb1, hbb1]
  have hG1 : passageGraph M1 = passageGraph m := by
    apply SimpleGraph.ext
    funext a b
    exact propext (hadj1 a b)
  obtain ⟨cP, hlP, hPemp, hPbelow, hPright, hPreal⟩ :
      ∃ cP, lookupCell M1.cells POS = some cP ∧ cP.empty = false ∧
        cP.wallBelow = true ∧
        (cP.wallRight = false → Maze.cellExists m (POS.1 + 1) POS.2 = true) ∧
        cP.x = POS.1 ∧ cP.y = POS.2 := by
    rcases hpair with ⟨rfl, rfl⟩ | ⟨rfl, rfl⟩
    · refine ⟨⟨POS.1, POS.2, true, true, false⟩, hlook1t, rfl, rfl, ?_, rfl, rfl⟩
      intro h
      simp at h
    · have hex : (lookupCell m.cells POS).isSome = true := by
        rw [lookupCell_isSome]
        exact hc
      rcases hl : lookupCell m.cells POS with _ | ccur
      · rw [hl] at hex
        simp at hex
      · have hreal := hinv.real POS ccur hl
        have hwb : ccur.wallBelow = true := by
          by_contra hwb
          have := hinv.wallB POS ccur hl (by
            cases hccw : ccur.wallBelow
            · rfl
            · exact absurd hccw hwb)
          rw [cellExists_iff_mem, ← hpp] at this
          exact htgtnm this
        refine ⟨ccur, ?_, hreal.2.2, hwb, ?_, hreal.1, hreal.2.1⟩
        · rw [hlook1 POS hcne, hl]
        · intro hb
          exact hinv.wallR POS ccur hl hb
  have hm2' : m2 = { M1 with cells := clearBelow M1.cells POS } := by
    rw [hm2, breakWallBelow_success hlP hPemp hPbelow]
  subst hm2'
  set m2 : Maze := { M1 with cells := clearBelow M1.cells POS } with hm2d
  have hkeys2 : m2.keys = tgt :: m.keys := by
    rw [Maze.keys_def, show m2.cells = clearBelow M1.cells POS from rfl,
      map_fst_clearBelow, ← Maze.keys_def, hkeys1]
  have hlen2 : m2.cells.length = m.cells.length + 1 := by
    show (clearBelow M1.cells POS).length = m.cells.length + 1
    unfold clearBelow
    rw [List.length_map]
    show (_ :: m.cells).length = _
    rw [List.length_cons]
  have hcount2 : brokenWallCount m2 = brokenWallCount m + 1 := by
    rw [brokenWallCount_eq, brokenWallCount_eq]
    show ((clearBelow M1.cells POS).map wallScore).sum = _
    rw [sum_wallScore_clearBelow hnod1 hlP hPbelow]
    show ((( tgt, (⟨tgt.1, tgt.2, true, true, false⟩ : Maze.Cell)) :: m.cells).map
      wallScore).sum + 1 = _
    rw [List.map_cons, List.sum_cons]
    show wallScore (tgt, ⟨tgt.1, tgt.2, true, true, false⟩) + _ + 1 = _
    rw [show wallScore (tgt, (⟨tgt.1, tgt.2, true, true, false⟩ : Maze.Cell)) = 0
      from rfl]
    omega
  have hwidth2 : m2.maxWidth = m.maxWidth := rfl
  have hheight2 : m2.maxHeight = m.maxHeight := rfl
  have hmonokeys : ∀ q ∈ m.keys, q ∈ m2.keys := by
    intro q hq
    rw [hkeys2]
    exact List.mem_cons_of_mem _ hq
  have hbroken2 : brokenMono m m2 := by
    intro q
    constructor
    · intro hb
      rw [show m2 = { M1 with cells := clearBelow M1.cells POS } from rfl,
        brokenRight_clearBelow, hbr1]
      exact hb
    · intro hb
      exact (brokenBelow_clearBelow_iff hlP q).mpr (Or.inr ((hbb1 q).symm ▸ hb))
  have hmono : StepMono m m2 := ⟨hwidth2, hheight2, hmonokeys, hbroken2⟩
  have hlook2P : lookupCell m2.cells POS = some { cP with wallBelow := false } := by
    show lookupCell (clearBelow M1.cells POS) POS = _
    rw [lookupCell_clearBelow_self, hlP]
    rfl
  have hlook2ne : ∀ q, q ≠ POS → lookupCell m2.cells q = lookupCell M1.cells q := by
    intro q hq
    exact lookupCell_clearBelow_ne _ hq
  have hPOSmem : POS ∈ m2.keys := by
    rw [hkeys2]
    rcases hpair with ⟨rfl, _⟩ | ⟨rfl, _⟩
    · exact List.mem_cons_self _ _
    · exact List.mem_cons_of_mem _ hc
  have hPARTmem : PARTNER ∈ m2.keys := by
    rw [hkeys2]
    rcases hpair with ⟨_, rfl⟩ | ⟨_, rfl⟩
    · exact List.mem_cons_of_mem _ hc
    · exact List.mem_cons_self _ _
  have hinv2 : MazeInv m2 := by
    refine ⟨?_, ?_, ?_, ?_, ?_, ?_⟩
    · rw [hkeys2]
      exact List.nodup_cons.mpr ⟨htgtnm, hinv.nodup⟩
    · intro p hp
      rw [hkeys2] at hp
      rcases List.mem_cons.mp hp with rfl | hp
      · exact hin
      · exact hinv.inbounds p hp
    · intro p c hl
      by_cases hq : p = POS
      · subst hq
        rw [hlook2P] at hl
        cases hl
        exact ⟨hPreal.1, hPreal.2, hPemp⟩
      · rw [hlook2ne p hq] at hl
        by_cases ht : p = tgt
        · subst ht
          rw [hlook1t] at hl
          cases hl
          exact ⟨rfl, rfl, rfl⟩
        · rw [hlook1 p ht] at hl
          exact hinv.real p c hl
    · intro p c hl hw
      rw [cellExists_iff_mem]
      by_cases hq : p = POS
      · subst hq
        rw [hlook2P] at hl
        cases hl
        have := hPright hw
        rw [cellExists_iff_mem] at this
        rw [hkeys2]
        exact List.mem_cons_of_mem _ this
      · rw [hlook2ne p hq] at hl
        by_cases ht : p = tgt
        · subst ht
          rw [hlook1t] at hl
          cases hl
          cases hw
        · rw [hlook1 p ht] at hl
          have := hinv.wallR p c hl hw
          rw [cellExists_iff_mem] at this
          rw [hkeys2]
          exact List.mem_cons_of_mem _ this
    · intro p c hl hw
      rw [cellExists_iff_mem]
      by_cases hq : p = POS
      · subst hq
        rw [← hpp]
        exact hPARTmem
      · rw [hlook2ne p hq] at hl
        by_cases ht : p = tgt
        · subst ht
          rw [hlook1t] at hl
          cases hl
          cases hw
        · rw [hlook1 p ht] at hl
          have := hinv.wallB p c hl hw
          rw [cellExists_iff_mem] at this
          rw [hkeys2]
          exact List.mem_cons_of_mem _ this
    · intro p hp
      have hfields : m2.minX = (m.bumpBox tgt.1 tgt.2).minX ∧
          m2.maxX = (m.bumpBox tgt.1 tgt.2).maxX ∧
          m2.minY = (m.bumpBox tgt.1 tgt.2).minY ∧
          m2.maxY = (m.bumpBox tgt.1 tgt.2).maxY := ⟨rfl, rfl, rfl, rfl⟩
      rw [hkeys2] at hp
      rcases List.mem_cons.mp hp with rfl | hp
      · exact boxContains_of_fields hfields.1 hfields.2.1 hfields.2.2.1 hfields.2.2.2
          (boxContains_bumpBox_self m p.1 p.2)
      · exact boxContains_of_fields hfields.1 hfields.2.1 hfields.2.2.1 hfields.2.2.2
          (boxContains_bumpBox tgt.1 tgt.2 (hinv.box p hp))
  have hedge : passageAdj m2 POS PARTNER := by
    exact Or.inr (Or.inr (Or.inl ⟨brokenBelow_clear_self hlP, hpp⟩))
  have hle : passageGraph m ≤ passageGraph m2 := passageGraph_le hbroken2
  have hconn : allConnected m → allConnected m2 := by
    intro hcm
    have hreach_tc : (passageGraph m2).Reachable tgt cpos := by
      rcases hpair with ⟨rfl, rfl⟩ | ⟨rfl, rfl⟩
      · exact SimpleGraph.Adj.reachable hedge
      · exact (SimpleGraph.Adj.reachable hedge).symm
    intro p hp q hq
    rw [hkeys2] at hp hq
    rcases List.mem_cons.mp hp with hp1 | hp2
    · rcases List.mem_cons.mp hq with hq1 | hq2
      · rw [hp1, hq1]
      · rw [hp1]
        exact hreach_tc.trans ((hcm cpos hc q hq2).mono hle)
    · rcases List.mem_cons.mp hq with hq1 | hq2
      · rw [hq1]
        exact ((hcm p hp2 cpos hc).mono hle).trans hreach_tc.symm
      · exact (hcm p hp2 q hq2).mono hle
  have hacy : (passageGraph m).IsAcyclic → (passageGraph m2).IsAcyclic := by
    intro hac
    refine isAcyclic_add_pendant (t := cpos) (w := tgt) hcne
      (fun z => not_passageAdj_of_none hinv hnl z) ?_ hac
    intro a b
    show passageAdj m2 a b ↔ _
    rw [show (passageAdj m2 a b) ↔ passageAdj M1 a b ∨
        (a = POS ∧ b = (POS.1, POS.2 + 1)) ∨ (a = (POS.1, POS.2 + 1) ∧ b = POS)
      from passageAdj_clearBelow_iff hlP a b]
    rw [hadj1 a b]
    rw [show ((POS.1 : Int), (POS.2 + 1 : Int)) = PARTNER from hpp.symm]
    rcases hpair with ⟨rfl, rfl⟩ | ⟨rfl, rfl⟩
    · constructor
      · rintro (h | ⟨rfl, rfl⟩ | ⟨rfl, rfl⟩)
        · exact Or.inl h
        · exact Or.inr (Or.inr ⟨rfl, rfl⟩)
        · exact Or.inr (Or.inl ⟨rfl, rfl⟩)
      · rintro (h | ⟨rfl, rfl⟩ | ⟨rfl, rfl⟩)
        · exact Or.inl h
        · exact Or.inr (Or.inr ⟨rfl, rfl⟩)
        · exact Or.inr (Or.inl ⟨rfl, rfl⟩)
    · constructor
      · rintro (h | ⟨rfl, rfl⟩ | ⟨rfl, rfl⟩)
        · exact Or.inl h
        · exact Or.inr (Or.inl ⟨rfl, rfl⟩)
        · exact Or.inr (Or.inr ⟨rfl, rfl⟩)
      · rintro (h | ⟨rfl, rfl⟩ | ⟨rfl, rfl⟩)
        · exact Or.inl h
        · exact Or.inr (Or.inl ⟨rfl, rfl⟩)
        · exact Or.inr (Or.inr ⟨rfl, rfl⟩)
  exact ⟨hinv2, hmono, hkeys2, hlen2, hcount2, hconn, hacy⟩

theorem popLoop_zero (sigma : Nat → List Dir) (k : Nat) (m : Maze)
    (cpos : Int × Int) (ds : List Dir) :
    Maze.popLoop sigma 0 k m cpos ds = none := rfl

theorem popLoop_nil (sigma : Nat → List Dir) (fuel k : Nat) (m : Maze)
    (cpos : Int × Int) :
    Maze.popLoop sigma (fuel + 1) k m cpos [] = some (m, k) := rfl

theorem popLoop_cons (sigma : Nat → List Dir) (fuel k : Nat) (m : Maze)
    (cpos : Int × Int) (d : Dir) (ds : List Dir) :
    Maze.popLoop sigma (fuel + 1) k m cpos (d :: ds) =
      if m.cellExists (dirTarget d cpos).1 (dirTarget d cpos).2 then
        Maze.popLoop sigma fuel k m cpos ds
      else
        match m.createCell (dirTarget d cpos).1 (dirTarget d cpos).2 with
        | (_, none) => Maze.popLoop sigma fuel k m cpos ds
        | (m1, some _) =>
            match Maze.popLoop sigma fuel (k + 1)
                (dirBreak d cpos (dirTarget d cpos) m1).1
                (dirTarget d cpos) (sigma k) with
            | none => none
            | some (m3, k3) => Maze.popLoop sigma fuel k3 m3 cpos ds := rfl

theorem createCell_none {m m1 : Maze} {x y : Int}
    (h : m.createCell x y = (m1, none)) : m1 = m ∧ ¬m.inb (x, y) := by
  by_cases hin : m.inb (x, y)
  · rcases hl : lookupCell m.cells (x, y) with _ | c
    · rw [createCell_new hin hl] at h
      simp at h
    · rw [createCell_exists hin hl] at h
      simp at h
  · rw [createCell_not_inb hin] at h
    exact ⟨(Prod.mk.injEq _ _ _ _ ▸ h).1.symm, hin⟩

theorem carve_step {m m1 m2 : Maze} {nc : Maze.Cell} {cpos : Int × Int} (d : Dir)
    (hinv : MazeInv m) (hc : cpos ∈ m.keys)
    (hex : m.cellExists (dirTarget d cpos).1 (dirTarget d cpos).2 = false)
    (hcc : m.createCell (dirTarget d cpos).1 (dirTarget d cpos).2 = (m1, some nc))
    (hm2 : m2 = (dirBreak d cpos (dirTarget d cpos) m1).1) :
    CarveStep m m2 (dirTarget d cpos) := by
  have hnl : lookupCell m.cells (dirTarget d cpos) = none := by
    rcases hl : lookupCell m.cells (dirTarget d cpos) with _ | c
    · rfl
    · unfold Maze.cellExists at hex
      rw [show (((dirTarget d cpos).1 : Int), ((dirTarget d cpos).2 : Int)) =
        dirTarget d cpos from rfl, hl] at hex
      simp at hex
  have hin : m.inb (dirTarget d cpos) := by
    by_contra hni
    rw [createCell_not_inb (by exact hni)] at hcc
    simp at hcc
  rw [@createCell_new m (dirTarget d cpos).1 (dirTarget d cpos).2 hin hnl] at hcc
  injection hcc with h1 h2
  cases d
  · exact @carve_step_right m m1 m2 cpos (dirTarget Dir.left cpos)
      (dirTarget Dir.left cpos) cpos hinv hc hnl hin (Or.inl ⟨rfl, rfl⟩)
      (by show cpos = (cpos.1 - 1 + 1, cpos.2)
          rw [Int.sub_add_cancel])
      h1.symm hm2
  · exact @carve_step_below m m1 m2 cpos (dirTarget Dir.up cpos)
      (dirTarget Dir.up cpos) cpos hinv hc hnl hin (Or.inl ⟨rfl, rfl⟩)
      (by show cpos = (cpos.1, cpos.2 - 1 + 1)
          rw [Int.sub_add_cancel])
      h1.symm hm2
  · exact @carve_step_right m m1 m2 cpos (dirTarget Dir.right cpos)
      cpos (dirTarget Dir.right cpos) hinv hc hnl hin (Or.inr ⟨rfl, rfl⟩)
      rfl h1.symm hm2
  · exact @carve_step_below m m1 m2 cpos (dirTarget Dir.down cpos)
      cpos (dirTarget Dir.down cpos) hinv hc hnl hin (Or.inr ⟨rfl, rfl⟩)
      rfl h1.symm hm2

/-- What one `_recursivePopulate` loop (and hence one full call) guarantees
from state `m` to state `m'`. -/
structure PopOut (m m' : Maze) : Prop where
  inv : MazeInv m'
  mono : StepMono m m'
  cnt : treeCount m → treeCount m'
  conn : allConnected m → allConnected m'
  acyc : (passageGraph m).IsAcyclic → (passageGraph m').IsAcyclic
  newClosed : ∀ p ∈ m'.keys, p ∉ m.keys → closedAt m' p

theorem PopOut.rfl {m : Maze} (hinv : MazeInv m) : PopOut m m :=
  ⟨hinv, StepMono.refl m, id, id, id, fun p hp hnp => absurd hp hnp⟩

theorem popOut_trans {m1 m2 m3 : Maze} (a : PopOut m1 m2) (b : PopOut m2 m3) :
    PopOut m1 m3 := by
  refine ⟨b.inv, stepMono_trans a.mono b.mono, fun h => b.cnt (a.cnt h),
    fun h => b.conn (a.conn h), fun h => b.acyc (a.acyc h), ?_⟩
  intro p hp hnp
  by_cases h2 : p ∈ m2.keys
  · exact b.mono.closedAt (a.newClosed p h2 hnp)
  · exact b.newClosed p hp h2

theorem CarveStep.cnt {m m2 : Maze} {tgt : Int × Int} (h : CarveStep m m2 tgt) :
    treeCount m → treeCount m2 := by
  intro ht
  unfold treeCount at ht ⊢
  rw [h.count, h.len]
  omega

theorem mem_allDirs (d : Dir) : d ∈ allDirs := by
  cases d <;> simp [allDirs]

/-- Master invariant preservation for the carving loop: a completed run
preserves the structural invariant monotonically, preserves the tree count,
connectivity and acyclicity of the passage graph, closes every newly
created cell under in-bounds neighbours, and stores every in-bounds target
of a direction it was asked to process. -/
theorem popLoop_master (sigma : Nat → List Dir)
    (hperm : ∀ n, (sigma n).Perm allDirs) :
    ∀ fuel k m cpos ds m' k',
      MazeInv m → cpos ∈ m.keys →
      Maze.popLoop sigma fuel k m cpos ds = some (m', k') →
      PopOut m m' ∧
        ∀ d ∈ ds, m.inb (dirTarget d cpos) → dirTarget d cpos ∈ m'.keys := by
  intro fuel
  induction fuel with
  | zero =>
      intro k m cpos ds m' k' _ _ hrun
      rw [popLoop_zero] at hrun
      cases hrun
  | succ fuel ih =>
      intro k m cpos ds m' k' hinv hc hrun
      match ds with
      | [] =>
          rw [popLoop_nil] at hrun
          injection hrun with hrun
          injection hrun with he1 he2
          subst he1
          exact ⟨PopOut.rfl hinv, by simp⟩
      | d :: ds =>
          rw [popLoop_cons] at hrun
          by_cases hex : m.cellExists (dirTarget d cpos).1 (dirTarget d cpos).2 = true
          · rw [if_pos hex] at hrun
            obtain ⟨hpop, hdirs⟩ := ih k m cpos ds m' k' hinv hc hrun
            refine ⟨hpop, ?_⟩
            intro d' hd' hin'
            rcases List.mem_cons.mp hd' with rfl | hd'
            · exact hpop.mono.keys _
                ((cellExists_iff_mem m (dirTarget d' cpos).1 (dirTarget d' cpos).2).mp hex)
            · exact hdirs d' hd' hin'
          · rw [if_neg hex] at hrun
            have hexf : m.cellExists (dirTarget d cpos).1 (dirTarget d cpos).2 = false := by
              cases hb : m.cellExists (dirTarget d cpos).1 (dirTarget d cpos).2
              · rfl
              · exact absurd hb hex
            rcases hcc : m.createCell (dirTarget d cpos).1 (dirTarget d cpos).2
              with ⟨m1, mnc⟩
            rw [hcc] at hrun
            rcases mnc with _ | nc
            · have hrun' : Maze.popLoop sigma fuel k m cpos ds = some (m', k') := hrun
              obtain ⟨-, hni⟩ := createCell_none hcc
              obtain ⟨hpop, hdirs⟩ := ih k m cpos ds m' k' hinv hc hrun'
              refine ⟨hpop, ?_⟩
              intro d' hd' hin'
              rcases List.mem_cons.mp hd' with rfl | hd'
              · exact absurd hin' hni
              · exact hdirs d' hd' hin'
            · have hrun' :
                  (match Maze.popLoop sigma fuel (k + 1)
                      (dirBreak d cpos (dirTarget d cpos) m1).1
                      (dirTarget d cpos) (sigma k) with
                  | none => none
                  | some (m3, k3) => Maze.popLoop sigma fuel k3 m3 cpos ds) =
                    some (m', k') := hrun
              rcases hrec : Maze.popLoop sigma fuel (k + 1)
                  (dirBreak d cpos (dirTarget d cpos) m1).1
                  (dirTarget d cpos) (sigma k) with _ | ⟨m3, k3⟩
              · rw [hrec] at hrun'
                cases hrun'
              · rw [hrec] at hrun'
                have hrun'' : Maze.popLoop sigma fuel k3 m3 cpos ds = some (m', k') :=
                  hrun'
                have hcs : CarveStep m ((dirBreak d cpos (dirTarget d cpos) m1).1)
                    (dirTarget d cpos) := carve_step d hinv hc hexf hcc rfl
                have htgtmem2 : dirTarget d cpos ∈
                    ((dirBreak d cpos (dirTarget d cpos) m1).1).keys := by
                  rw [hcs.keys]
                  exact List.mem_cons_self _ _
                obtain ⟨hpop2, hdirs2⟩ := ih (k + 1)
                  ((dirBreak d cpos (dirTarget d cpos) m1).1)
                  (dirTarget d cpos) (sigma k) m3 k3 hcs.inv htgtmem2 hrec
                have hclosed_tgt : closedAt m3 (dirTarget d cpos) := by
                  intro d' hind'
                  refine hdirs2 d' ?_ ?_
                  · exact ((hperm k).mem_iff).mpr (mem_allDirs d')
                  · exact (hpop2.mono.inb_iff _).mp hind'
                have hcposm3 : cpos ∈ m3.keys := by
                  refine hpop2.mono.keys _ ?_
                  rw [hcs.keys]
                  exact List.mem_cons_of_mem _ hc
                obtain ⟨hpop3, hdirs3⟩ := ih k3 m3 cpos ds m' k' hpop2.inv hcposm3 hrun''
                have hcomb : PopOut m m3 := by
                  refine ⟨hpop2.inv, stepMono_trans hcs.mono hpop2.mono,
                    fun h => hpop2.cnt (hcs.cnt h),
                    fun h => hpop2.conn (hcs.conn h),
                    fun h => hpop2.acyc (hcs.acyc h), ?_⟩
                  intro p hp hnp
                  by_cases hp2 : p ∈ ((dirBreak d cpos (dirTarget d cpos) m1).1).keys
                  · rw [hcs.keys] at hp2
                    rcases List.mem_cons.mp hp2 with rfl | hp2
                    · exact hclosed_tgt
                    · exact absurd hp2 hnp
                  · exact hpop2.newClosed p hp hp2
                refine ⟨popOut_trans hcomb hpop3, ?_⟩
                intro d' hd' hin'
                rcases List.mem_cons.mp hd' with rfl | hd'
                · exact hpop3.mono.keys _ (hpop2.mono.keys _ htgtmem2)
                · exact hdirs3 d' hd' ((hcomb.mono.inb_iff _).mpr hin')

/-! ## The seed state and grid coverage -/

/-- The state right after creating the seed cell in an empty maze. -/
def seedMaze (w h x y : Int) : Maze :=
  ⟨w, h, [((x, y), ⟨x, y, true, true, false⟩)], some x, some y, some x, some y⟩

theorem createCell_init {w h x y : Int} (hin : (Maze.init w h).inb (x, y)) :
    (Maze.init w h).createCell x y =
      (seedMaze w h x y, some ⟨x, y, true, true, false⟩) := by
  rw [@createCell_new (Maze.init w h) x y hin rfl]
  rfl

theorem seedMaze_lookup (w h x y : Int) (p : Int × Int) :
    lookupCell (seedMaze w h x y).cells p =
      if (x, y) = p then some ⟨x, y, true, true, false⟩ else none := by
  rfl

theorem seedMaze_inv {w h x y : Int} (hin : (Maze.init w h).inb (x, y)) :
    MazeInv (seedMaze w h x y) := by
  refine ⟨?_, ?_, ?_, ?_, ?_, ?_⟩
  · simp [Maze.keys, seedMaze]
  · intro p hp
    simp [Maze.keys, seedMaze] at hp
    subst hp
    exact hin
  · intro p c hl
    rw [seedMaze_lookup] at hl
    by_cases h : (x, y) = p
    · rw [if_pos h] at hl
      cases hl
      exact ⟨congrArg Prod.fst h, congrArg Prod.snd h, rfl⟩
    · rw [if_neg h] at hl
      cases hl
  · intro p c hl hw
    rw [seedMaze_lookup] at hl
    by_cases h : (x, y) = p
    · rw [if_pos h] at hl
      cases hl
      cases hw
    · rw [if_neg h] at hl
      cases hl
  · intro p c hl hw
    rw [seedMaze_lookup] at hl
    by_cases h : (x, y) = p
    · rw [if_pos h] at hl
      cases hl
      cases hw
    · rw [if_neg h] at hl
      cases hl
  · intro p hp
    simp [Maze.keys, seedMaze] at hp
    subst hp
    exact ⟨⟨x, rfl, le_refl x⟩, ⟨x, rfl, le_refl x⟩,
      ⟨y, rfl, le_refl y⟩, ⟨y, rfl, le_refl y⟩⟩

theorem seedMaze_treeCount (w h x y : Int) : treeCount (seedMaze w h x y) := by
  unfold treeCount brokenWallCount seedMaze
  rfl

theorem seedMaze_conn (w h x y : Int) : allConnected (seedMaze w h x y) := by
  intro p hp q hq
  simp [Maze.keys, seedMaze] at hp hq
  subst hp
  subst hq
  exact SimpleGraph.Reachable.refl _

theorem seedMaze_acyclic (w h x y : Int) :
    (passageGraph (seedMaze w h x y)).IsAcyclic := by
  apply isAcyclic_of_no_adj
  intro a b hadj
  have hbr : ∀ z, brokenRight (seedMaze w h x y) z = false := by
    intro z
    unfold brokenRight
    rw [seedMaze_lookup]
    by_cases h : (x, y) = z
    · rw [if_pos h]
      rfl
    · rw [if_neg h]
  have hbb : ∀ z, brokenBelow (seedMaze w h x y) z = false := by
    intro z
    unfold brokenBelow
    rw [seedMaze_lookup]
    by_cases h : (x, y) = z
    · rw [if_pos h]
      rfl
    · rw [if_neg h]
  rcases hadj with ⟨hb, _⟩ | ⟨hb, _⟩ | ⟨hb, _⟩ | ⟨hb, _⟩
  · rw [hbr] at hb
    cases hb
  · rw [hbr] at hb
    cases hb
  · rw [hbb] at hb
    cases hb
  · rw [hbb] at hb
    cases hb

/-- A set of stored cells that contains an in-bounds seed and is closed under
in-bounds neighbours covers the whole grid. -/
theorem grid_fill {m : Maze} (hinb : ∀ p ∈ m.keys, m.inb p)
    (hclosed : ∀ p ∈ m.keys, closedAt m p)
    {x y : Int} (hseed : (x, y) ∈ m.keys) :
    ∀ a b, 0 ≤ a → a < m.maxWidth → 0 ≤ b → b < m.maxHeight →
      (a, b) ∈ m.keys := by
  have hseedin := hinb _ hseed
  obtain ⟨hx0, hxw, hy0, hyh⟩ := hseedin
  have hrow : ∀ a, 0 ≤ a → a < m.maxWidth → (a, y) ∈ m.keys := by
    intro a ha haw
    by_cases hax : x ≤ a
    · refine Int.le_induction (P := fun n => n < m.maxWidth → (n, y) ∈ m.keys)
        (fun _ => hseed) ?_ a hax haw
      intro n hn ih hw1
      have hmn : (n, y) ∈ m.keys := ih (by omega)
      have := hclosed (n, y) hmn Dir.right (by
        show m.inb (n + 1, y)
        exact ⟨by omega, hw1, hy0, hyh⟩)
      exact this
    · have hax' : a ≤ x := by omega
      refine Int.le_induction_down (P := fun n => 0 ≤ n → (n, y) ∈ m.keys)
        (fun _ => hseed) ?_ a hax' ha
      intro n hn ih h0
      have hmn : (n, y) ∈ m.keys := ih (by omega)
      have := hclosed (n, y) hmn Dir.left (by
        show m.inb (n - 1, y)
        exact ⟨h0, by omega, hy0, hyh⟩)
      exact this
  intro a b ha haw hb hbh
  have hbase : (a, y) ∈ m.keys := hrow a ha haw
  by_cases hby : y ≤ b
  · refine Int.le_induction (P := fun n => n < m.maxHeight → (a, n) ∈ m.keys)
      (fun _ => hbase) ?_ b hby hbh
    intro n hn ih hh1
    have hmn : (a, n) ∈ m.keys := ih (by omega)
    have := hclosed (a, n) hmn Dir.down (by
      show m.inb (a, n + 1)
      exact ⟨ha, haw, by omega, hh1⟩)
    exact this
  · have hby' : b ≤ y := by omega
    refine Int.le_induction_down (P := fun n => 0 ≤ n → (a, n) ∈ m.keys)
      (fun _ => hbase) ?_ b hby' hb
    intro n hn ih h0
    have hmn : (a, n) ∈ m.keys := ih (by omega)
    have := hclosed (a, n) hmn Dir.up (by
      show m.inb (a, n - 1)
      exact ⟨ha, haw, h0, by omega⟩)
    exact this

/-! ## Invariant preservation for the public operations -/

theorem MazeInv_init (w h : Int) : MazeInv (Maze.init w h) := by
  refine ⟨?_, ?_, ?_, ?_, ?_, ?_⟩
  · simp [Maze.keys, Maze.init]
  · intro p hp
    simp [Maze.keys, Maze.init] at hp
  · intro p c hl
    cases hl
  · intro p c hl
    cases hl
  · intro p c hl
    cases hl
  · intro p hp
    simp [Maze.keys, Maze.init] at hp

theorem consFresh_inv {m : Maze} (hinv : MazeInv m) {tgt : Int × Int}
    (hnl : lookupCell m.cells tgt = none) (hin : m.inb tgt) :
    MazeInv { m.bumpBox tgt.1 tgt.2 with
      cells := (tgt, ⟨tgt.1, tgt.2, true, true, false⟩) :: m.cells } := by
  have htgtnm : tgt ∉ m.keys := by
    rw [Maze.keys_def]
    exact (lookupCell_eq_none _ _).mp hnl
  set M1 : Maze := { m.bumpBox tgt.1 tgt.2 with
    cells := (tgt, ⟨tgt.1, tgt.2, true, true, false⟩) :: m.cells } with hM1
  have hlook1t : lookupCell M1.cells tgt = some ⟨tgt.1, tgt.2, true, true, false⟩ := by
    show lookupCell ((tgt, _) :: m.cells) tgt = _
    rw [lookupCell, if_pos rfl]
  have hlook1 : ∀ q, q ≠ tgt → lookupCell M1.cells q = lookupCell m.cells q := by
    intro q hq
    show lookupCell ((tgt, _) :: m.cells) q = _
    rw [lookupCell, if_neg (fun h => hq h.symm)]
  have hkeys1 : M1.keys = tgt :: m.keys := by
    rw [Maze.keys_def, Maze.keys_def]
    rfl
  refine ⟨?_, ?_, ?_, ?_, ?_, ?_⟩
  · rw [hkeys1]
    exact List.nodup_cons.mpr ⟨htgtnm, hinv.nodup⟩
  · intro p hp
    rw [hkeys1] at hp
    rcases List.mem_cons.mp hp with rfl | hp
    · exact hin
    · exact hinv.inbounds p hp
  · intro p c hl
    by_cases ht : p = tgt
    · subst ht
      rw [hlook1t] at hl
      cases hl
      exact ⟨rfl, rfl, rfl⟩
    · rw [hlook1 p ht] at hl
      exact hinv.real p c hl
  · intro p c hl hw
    rw [cellExists_iff_mem, hkeys1]
    by_cases ht : p = tgt
    · subst ht
      rw [hlook1t] at hl
      cases hl
      cases hw
    · rw [hlook1 p ht] at hl
      have := hinv.wallR p c hl hw
      rw [cellExists_iff_mem] at this
      exact List.mem_cons_of_mem _ this
  · intro p c hl hw
    rw [cellExists_iff_mem, hkeys1]
    by_cases ht : p = tgt
    · subst ht
      rw [hlook1t] at hl
      cases hl
      cases hw
    · rw [hlook1 p ht] at hl
      have := hinv.wallB p c hl hw
      rw [cellExists_iff_mem] at this
      exact List.mem_cons_of_mem _ this
  · intro p hp
    have hfields : M1.minX = (m.bumpBox tgt.1 tgt.2).minX ∧
        M1.maxX = (m.bumpBox tgt.1 tgt.2).maxX ∧
        M1.minY = (m.bumpBox tgt.1 tgt.2).minY ∧
        M1.maxY = (m.bumpBox tgt.1 tgt.2).maxY := ⟨rfl, rfl, rfl, rfl⟩
    rw [hkeys1] at hp
    rcases List.mem_cons.mp hp with rfl | hp
    · exact boxContains_of_fields hfields.1 hfields.2.1 hfields.2.2.1 hfields.2.2.2
        (boxContains_bumpBox_self m p.1 p.2)
    · exact boxContains_of_fields hfields.1 hfields.2.1 hfields.2.2.1 hfields.2.2.2
        (boxContains_bumpBox tgt.1 tgt.2 (hinv.box p hp))

theorem bumpBox_inv {m : Maze} (hinv : MazeInv m) (x y : Int) :
    MazeInv (m.bumpBox x y) := by
  refine ⟨hinv.nodup, hinv.inbounds, hinv.real, hinv.wallR, hinv.wallB, ?_⟩
  intro p hp
  exact boxContains_bumpBox x y (hinv.box p hp)

theorem createCell_inv {m : Maze} (hinv : MazeInv m) (x y : Int) :
    MazeInv (m.createCell x y).1 := by
  by_cases hin : m.inb (x, y)
  · rcases hl : lookupCell m.cells (x, y) with _ | c
    · rw [createCell_new hin hl]
      exact consFresh_inv hinv hl hin
    · rw [createCell_exists hin hl]
      exact bumpBox_inv hinv x y
  · rw [createCell_not_inb hin]
    exact hinv

/-- A completed `populateFrom` run from an empty maze with an in-bounds seed:
it returns `true`, covers the whole grid, and the carved passages form a
spanning tree (count, connectivity and acyclicity). -/
theorem populateFrom_init_run {w h x y : Int} {sigma : Nat → List Dir}
    {fuel k : Nat} (hperm : ∀ n, (sigma n).Perm allDirs)
    (hx0 : 0 ≤ x) (hxw : x < w) (hy0 : 0 ≤ y) (hyh : y < h)
    {res : Except PyError (Maze × Bool)}
    (hrun : (Maze.init w h).populateFrom sigma fuel k x y = some res) :
    ∃ m', res = .ok (m', true) ∧ MazeInv m' ∧ treeCount m' ∧ allConnected m' ∧
      (passageGraph m').IsAcyclic ∧ m'.maxWidth = w ∧ m'.maxHeight = h ∧
      (∀ a b, 0 ≤ a → a < w → 0 ≤ b → b < h → m'.cellExists a b = true) := by
  have hin : (Maze.init w h).inb (x, y) := ⟨hx0, hxw, hy0, hyh⟩
  have hrun1 : (match (Maze.init w h).createCell x y with
      | (_, none) => some (Except.error PyError.attributeError)
      | (m1, some _) =>
          (m1.recursivePopulate sigma fuel k (x, y)).map fun r =>
            Except.ok (r.1, true)) = some res := hrun
  rw [createCell_init hin] at hrun1
  have hrun2 : ((seedMaze w h x y).recursivePopulate sigma fuel k (x, y)).map
      (fun r => Except.ok (r.1, true)) = some res := hrun1
  obtain ⟨⟨mm, kk⟩, hrec, hres⟩ := Option.map_eq_some'.mp hrun2
  have hseedmem : (x, y) ∈ (seedMaze w h x y).keys := by
    simp [Maze.keys, seedMaze]
  obtain ⟨hpop, hdirs⟩ := popLoop_master sigma hperm fuel (k + 1)
    (seedMaze w h x y) (x, y) (sigma k) mm kk (seedMaze_inv hin) hseedmem hrec
  have hclosed_seed : closedAt mm (x, y) := by
    intro d hind
    refine hdirs d ?_ ?_
    · exact ((hperm k).mem_iff).mpr (mem_allDirs d)
    · exact (hpop.mono.inb_iff _).mp hind
  have hall_closed : ∀ p ∈ mm.keys, closedAt mm p := by
    intro p hp
    by_cases hps : p = (x, y)
    · subst hps
      exact hclosed_seed
    · refine hpop.newClosed p hp ?_
      intro hmem
      simp [Maze.keys, seedMaze] at hmem
      exact hps (by rw [hmem])
  have hw' : mm.maxWidth = w := hpop.mono.width
  have hh' : mm.maxHeight = h := hpop.mono.height
  refine ⟨mm, hres.symm, hpop.inv, hpop.cnt (seedMaze_treeCount w h x y),
    hpop.conn (seedMaze_conn w h x y), hpop.acyc (seedMaze_acyclic w h x y),
    hw', hh', ?_⟩
  intro a b ha haw hb hbh
  have := grid_fill hpop.inv.inbounds hall_closed
    (hpop.mono.keys _ hseedmem) a b ha (by rw [hw']; exact haw) hb
    (by rw [hh']; exact hbh)
  rw [cellExists_iff_mem]
  exact this

/-- States reachable by any sequence of `createCell` and `populateFrom`
calls (the random source always samples permutations of the four
directions, as `random.sample` does). -/
inductive ReachableMaze : Maze → Prop where
  | init (w h : Int) : ReachableMaze (Maze.init w h)
  | create (m : Maze) (x y : Int) :
      ReachableMaze m → ReachableMaze (m.createCell x y).1
  | populate (m m' : Maze) (sigma : Nat → List Dir) (fuel k : Nat)
      (x y : Int) (b : Bool) (hperm : ∀ n, (sigma n).Perm allDirs) :
      ReachableMaze m → m.populateFrom sigma fuel k x y = some (.ok (m', b)) →
      ReachableMaze m'

theorem populateFrom_inv {m m' : Maze} {sigma : Nat → List Dir}
    {fuel k : Nat} {x y : Int} {b : Bool} (hinv : MazeInv m)
    (hperm : ∀ n, (sigma n).Perm allDirs)
    (hrun : m.populateFrom sigma fuel k x y = some (.ok (m', b))) :
    MazeInv m' := by
  by_cases hex : m.cellExists x y = true
  · have hrun1 : m.populateFrom sigma fuel k x y = some (.ok (m, false)) := by
      unfold Maze.populateFrom
      rw [if_pos hex]
    rw [hrun1] at hrun
    injection hrun with h1
    injection h1 with h2
    injection h2 with h3 h4
    exact h3 ▸ hinv
  · have hexf : m.cellExists x y = false := by
      cases hb : m.cellExists x y
      · rfl
      · exact absurd hb hex
    have hnl : lookupCell m.cells (x, y) = none := by
      rcases hl : lookupCell m.cells (x, y) with _ | c
      · rfl
      · unfold Maze.cellExists at hexf
        rw [hl] at hexf
        simp at hexf
    have hrun1 : (match m.createCell x y with
        | (_, none) => some (Except.error PyError.attributeError)
        | (m1, some _) =>
            (m1.recursivePopulate sigma fuel k (x, y)).map fun r =>
              Except.ok (r.1, true)) = some (.ok (m', b)) := by
      rw [← hrun]
      unfold Maze.populateFrom
      rw [if_neg (by rw [hexf]; simp)]
    by_cases hin : m.inb (x, y)
    · rw [@createCell_new m x y hin hnl] at hrun1
      have hrun2 : (Maze.recursivePopulate sigma fuel k
          { m.bumpBox x y with
            cells := ((x, y), ⟨x, y, true, true, false⟩) :: m.cells } (x, y)).map
          (fun r => Except.ok (r.1, true)) = some (.ok (m', b)) := hrun1
      obtain ⟨⟨mm, kk⟩, hrec, hres⟩ := Option.map_eq_some'.mp hrun2
      have hminv : MazeInv { m.bumpBox x y with
          cells := ((x, y), ⟨x, y, true, true, false⟩) :: m.cells } :=
        consFresh_inv hinv hnl hin
      have hseedmem : ((x, y) : Int × Int) ∈ ({ m.bumpBox x y with
          cells := ((x, y), ⟨x, y, true, true, false⟩) :: m.cells } : Maze).keys := by
        rw [Maze.keys_def]
        exact List.mem_cons_self _ _
      obtain ⟨hpop, _⟩ := popLoop_master sigma hperm fuel (k + 1) _ (x, y)
        (sigma k) mm kk hminv hseedmem hrec
      injection hres with hres1
      injection hres1 with hres2 hres3
      exact hres2 ▸ hpop.inv
    · rw [createCell_not_inb hin] at hrun1
      have hrun2 : some (Except.error PyError.attributeError) =
          some (Except.ok ((m', b) : Maze × Bool)) := hrun1
      injection hrun2 with h1
      cases h1

theorem reachable_inv {m : Maze} (h : ReachableMaze m) : MazeInv m := by
  induction h with
  | init w h => exact MazeInv_init w h
  | create m x y _ ih => exact createCell_inv ih x y
  | populate m m' sigma fuel k x y b hperm _ hrun ih =>
      exact populateFrom_inv ih hperm hrun

theorem getCell_eq_empty_of_none {m : Maze} {x y : Int}
    (h : lookupCell m.cells (x, y) = none) :
    m.getCell x y = m.emptyCell x y := by
  unfold Maze.getCell
  split_ifs with h1 h2
  · rfl
  · rfl
  · rw [h]

theorem emptyCell_hasWallRight (m : Maze) (x y : Int) :
    (m.emptyCell x y).hasWallRight = m.cellExists (x + 1) y := rfl

theorem emptyCell_hasWallBelow (m : Maze) (x y : Int) :
    (m.emptyCell x y).hasWallBelow = m.cellExists x (y + 1) := rfl

/-! ## Concrete runs used as witnesses -/

/-- A deterministic sample stream: `random.sample` always returns the
directions in their original order. -/
def constDirs : Nat → List Dir := fun _ => allDirs

theorem constDirs_perm : ∀ n, (constDirs n).Perm allDirs :=
  fun _ => List.Perm.refl _

/-- The maze produced by `Maze(2, 2)` followed by `populateFrom(0, 0)` under
the `constDirs` sample stream (computed by evaluation). -/
def mazeTwo : Maze :=
  ⟨2, 2,
    [((0, 1), ⟨0, 1, true, false, false⟩),
     ((1, 1), ⟨1, 1, true, true, false⟩),
     ((1, 0), ⟨1, 0, false, true, false⟩),
     ((0, 0), ⟨0, 0, true, false, false⟩)],
    some 0, some 0, some 1, some 1⟩

theorem mazeTwo_run :
    (Maze.init 2 2).populateFrom constDirs 30 0 0 0 =
      some (.ok (mazeTwo, true)) := by
  rfl

/-! ## The claims -/

/-- C3: the claim says `hasWallLeft()` and `hasWallAbove()` never fail and
always return a boolean.  In the source both call `self.__maze.getcell(...)`,
but the `Maze` class defines `getCell`, not `getcell`, so both calls raise
`AttributeError` for every cell of every maze instead of returning a
boolean. -/
theorem claim_C3_hasWall_delegation_raises (m : Maze) (c : Maze.Cell) :
    Maze.Cell.hasWallLeft m c = .error .attributeError ∧
      Maze.Cell.hasWallAbove m c = .error .attributeError := by
  constructor <;> rfl

/-- C4: the claim says `breakWallLeft()` is exactly `breakWallRight()` on the
cell at `(x-1, y)` and `breakWallAbove()` exactly `breakWallBelow()` on the
cell at `(x, y-1)`.  In the source both delegating methods call the
undefined attribute `getcell` and raise `AttributeError` for every cell
(and `breakWallAbove` additionally forwards to `breakWallAbove` itself, not
`breakWallBelow`, which would recurse without end even under the corrected
name). -/
theorem claim_C4_breakWall_delegation_raises (m : Maze) (c : Maze.Cell) :
    Maze.Cell.breakWallLeft m c = .error .attributeError ∧
      Maze.Cell.breakWallAbove m c = .error .attributeError := by
  constructor <;> rfl

/-- C2: the claim says that for horizontally adjacent real cells `A` and
`B`, `A.hasWallRight() == B.hasWallLeft()`.  On the concrete maze obtained
by `Maze(2, 1)`; `createCell(0, 0)`; `createCell(1, 0)`, the left cell's
`hasWallRight()` returns the boolean `True`, while the right cell's
`hasWallLeft()` raises `AttributeError` (undefined attribute `getcell`), so
it is not equal to any boolean result. -/
theorem claim_C2_wall_symmetry_broken :
    (((((Maze.init 2 1).createCell 0 0).1.createCell 1 0).1.getCell 0 0).hasWallRight
        = true) ∧
      ∀ r : Bool,
        Maze.Cell.hasWallLeft ((((Maze.init 2 1).createCell 0 0).1.createCell 1 0).1)
          (((((Maze.init 2 1).createCell 0 0).1.createCell 1 0).1.getCell 1 0))
          ≠ .ok r := by
  constructor
  · rfl
  · intro r h
    cases h

/-- C10: rendering a freshly constructed maze fails: the bounding-box
entries are still `None`, so `__str__` raises `TypeError` at
`self.__cellrows['min'][1]-1` instead of returning an empty or blank
string. -/
theorem claim_C10_render_fresh_fails (w h : Int) :
    (Maze.init w h).str = .error .typeError := by
  rfl

/-- C9: the claim says a maze with zero or negative bounds behaves as a grid
containing no cells, with `createCell` returning absence and `populateFrom`
and rendering not crashing ambiguously.  `createCell` does return absence
for every coordinate, but `populateFrom` passes the resulting `None` into
`_recursivePopulate`, which dereferences `None.x` and raises
`AttributeError`, and `__str__` raises `TypeError` on the unset bounding
box — both ambiguous crashes. -/
theorem claim_C9_nonpositive_bounds (w h x y : Int) (hw : w ≤ 0 ∨ h ≤ 0) :
    (Maze.init w h).createCell x y = (Maze.init w h, none) ∧
      (∀ sigma fuel k,
        (Maze.init w h).populateFrom sigma fuel k x y =
          some (.error .attributeError)) ∧
      (Maze.init w h).str = .error .typeError := by
  have hni : ¬(Maze.init w h).inb (x, y) := by
    unfold Maze.inb Maze.init
    intro hcon
    rcases hcon with ⟨h1, h2, h3, h4⟩
    rcases hw with hw | hw
    · simp only at h2
      omega
    · simp only at h4
      omega
  refine ⟨createCell_not_inb hni, ?_, rfl⟩
  intro sigma fuel k
  unfold Maze.populateFrom
  rw [if_neg (by
    rw [show (Maze.init w h).cellExists x y = false from rfl]
    simp)]
  rw [createCell_not_inb hni]

theorem claim_C9_nonpositive_bounds_witness :
    (Maze.init 0 0).createCell 0 0 = (Maze.init 0 0, none) ∧
      (Maze.init 0 0).populateFrom constDirs 3 0 0 0 =
        some (.error .attributeError) ∧
      (Maze.init 0 0).str = .error .typeError := by
  obtain ⟨h1, h2, h3⟩ := claim_C9_nonpositive_bounds 0 0 0 0 (Or.inl (by omega))
  exact ⟨h1, h2 constDirs 3 0, h3⟩

theorem bumpBox_eq_self {m : Maze} {x y : Int} (h : boxContains m (x, y)) :
    m.bumpBox x y = m := by
  obtain ⟨⟨a1, ha1, hl1⟩, ⟨b1, hb1, hl2⟩, ⟨a2, ha2, hl3⟩, ⟨b2, hb2, hl4⟩⟩ := h
  unfold Maze.bumpBox
  cases m with
  | mk W H cs mnX mnY mxX mxY =>
      simp only at ha1 hb1 ha2 hb2 hl1 hl2 hl3 hl4
      subst ha1
      subst hb1
      subst ha2
      subst hb2
      have e1 : bumpMin (some a1) x = some a1 := by
        show (if x < a1 then some x else some a1) = some a1
        rw [if_neg (by omega)]
      have e2 : bumpMin (some a2) y = some a2 := by
        show (if y < a2 then some y else some a2) = some a2
        rw [if_neg (by omega)]
      have e3 : bumpMax (some b1) x = some b1 := by
        show (if b1 < x then some x else some b1) = some b1
        rw [if_neg (by omega)]
      have e4 : bumpMax (some b2) y = some b2 := by
        show (if b2 < y then some y else some b2) = some b2
        rw [if_neg (by omega)]
      rw [e1, e2, e3, e4]

/-- C5: `createCell(x, y)` returns absence out of bounds; in bounds on a
fresh coordinate it creates, stores and returns a new real cell with both
walls present and a bounding box containing `(x, y)`; on an occupied
coordinate it returns the stored cell itself and changes nothing (the
bounding-box writes it still performs are no-ops because the box already
contains every stored cell). -/
theorem claim_C5_createCell (m : Maze) (x y : Int) (hinv : MazeInv m) :
    (¬m.inb (x, y) → m.createCell x y = (m, none)) ∧
    (m.inb (x, y) → lookupCell m.cells (x, y) = none →
      (m.createCell x y).2 = some ⟨x, y, true, true, false⟩ ∧
      lookupCell (m.createCell x y).1.cells (x, y) = some ⟨x, y, true, true, false⟩ ∧
      boxContains (m.createCell x y).1 (x, y)) ∧
    (∀ c, lookupCell m.cells (x, y) = some c → m.createCell x y = (m, some c)) := by
  refine ⟨fun hni => createCell_not_inb hni, ?_, ?_⟩
  · intro hin hnl
    rw [createCell_new hin hnl]
    refine ⟨rfl, ?_, ?_⟩
    · show lookupCell (((x, y), (⟨x, y, true, true, false⟩ : Maze.Cell))
        :: m.cells) (x, y) = _
      rw [lookupCell, if_pos rfl]
    · exact boxContains_of_fields rfl rfl rfl rfl (boxContains_bumpBox_self m x y)
  · intro c hl
    have hmem : (x, y) ∈ m.keys := by
      rw [Maze.keys_def]
      exact List.mem_map.mpr ⟨((x, y), c), lookupCell_mem hl, rfl⟩
    have hin := hinv.inbounds _ hmem
    rw [createCell_exists hin hl, bumpBox_eq_self (hinv.box _ hmem)]

theorem claim_C5_createCell_witness :
    ((seedMaze 2 2 0 0).createCell 5 0 = (seedMaze 2 2 0 0, none)) ∧
    ((seedMaze 2 2 0 0).createCell 1 0).2 = some ⟨1, 0, true, true, false⟩ ∧
    ((seedMaze 2 2 0 0).createCell 0 0 = (seedMaze 2 2 0 0,
      some ⟨0, 0, true, true, false⟩)) := by
  have hinv : MazeInv (seedMaze 2 2 0 0) := seedMaze_inv (by decide)
  obtain ⟨h1, -, -⟩ := claim_C5_createCell (seedMaze 2 2 0 0) 5 0 hinv
  obtain ⟨-, h2, -⟩ := claim_C5_createCell (seedMaze 2 2 0 0) 1 0 hinv
  obtain ⟨-, -, h3⟩ := claim_C5_createCell (seedMaze 2 2 0 0) 0 0 hinv
  exact ⟨h1 (by decide), (h2 (by decide) rfl).1, h3 ⟨0, 0, true, true, false⟩ rfl⟩

/-! Keys are never removed by the carving loop (no invariant needed). -/

theorem createCell_keys_mono (m : Maze) (x y : Int) :
    ∀ p ∈ m.keys, p ∈ (m.createCell x y).1.keys := by
  intro p hp
  by_cases hin : m.inb (x, y)
  · rcases hl : lookupCell m.cells (x, y) with _ | c
    · rw [createCell_new hin hl, Maze.keys_def]
      rw [Maze.keys_def] at hp
      exact List.mem_cons_of_mem _ hp
    · rw [createCell_exists hin hl]
      exact hp
  · rw [createCell_not_inb hin]
    exact hp

theorem breakWallRight_fail {m : Maze} {q : Int × Int}
    (h : ∀ c, lookupCell m.cells q = some c →
      ¬(c.empty = false ∧ c.wallRight = true)) :
    m.breakWallRight q = (m, false) := by
  unfold Maze.breakWallRight
  rcases hl : lookupCell m.cells q with _ | c
  · rfl
  · show (if c.empty = false ∧ c.wallRight = true then
        ({ m with cells := clearRight m.cells q }, true) else (m, false)) = (m, false)
    rw [if_neg (h c hl)]

theorem breakWallBelow_fail {m : Maze} {q : Int × Int}
    (h : ∀ c, lookupCell m.cells q = some c →
      ¬(c.empty = false ∧ c.wallBelow = true)) :
    m.breakWallBelow q = (m, false) := by
  unfold Maze.breakWallBelow
  rcases hl : lookupCell m.cells q with _ | c
  · rfl
  · show (if c.empty = false ∧ c.wallBelow = true then
        ({ m with cells := clearBelow m.cells q }, true) else (m, false)) = (m, false)
    rw [if_neg (h c hl)]

theorem breakWallRight_keys_mono (m : Maze) (q : Int × Int) :
    ∀ p ∈ m.keys, p ∈ (m.breakWallRight q).1.keys := by
  intro p hp
  rcases hl : lookupCell m.cells q with _ | c
  · rw [breakWallRight_fail (fun c hc => by rw [hl] at hc; cases hc)]
    exact hp
  · by_cases hcond : c.empty = false ∧ c.wallRight = true
    · rw [breakWallRight_success hl hcond.1 hcond.2]
      show p ∈ ({ m with cells := clearRight m.cells q } : Maze).keys
      rw [Maze.keys_def]
      show p ∈ (clearRight m.cells q).map Prod.fst
      rw [map_fst_clearRight]
      exact hp
    · rw [breakWallRight_fail (fun c' hc => by
        rw [hl] at hc
        cases hc
        exact hcond)]
      exact hp

theorem breakWallBelow_keys_mono (m : Maze) (q : Int × Int) :
    ∀ p ∈ m.keys, p ∈ (m.breakWallBelow q).1.keys := by
  intro p hp
  rcases hl : lookupCell m.cells q with _ | c
  · rw [breakWallBelow_fail (fun c hc => by rw [hl] at hc; cases hc)]
    exact hp
  · by_cases hcond : c.empty = false ∧ c.wallBelow = true
    · rw [breakWallBelow_success hl hcond.1 hcond.2]
      show p ∈ ({ m with cells := clearBelow m.cells q } : Maze).keys
      rw [Maze.keys_def]
      show p ∈ (clearBelow m.cells q).map Prod.fst
      rw [map_fst_clearBelow]
      exact hp
    · rw [breakWallBelow_fail (fun c' hc => by
        rw [hl] at hc
        cases hc
        exact hcond)]
      exact hp

theorem dirBreak_keys_mono (d : Dir) (cpos tgt : Int × Int) (m : Maze) :
    ∀ p ∈ m.keys, p ∈ (dirBreak d cpos tgt m).1.keys := by
  cases d
  · exact breakWallRight_keys_mono m tgt
  · exact breakWallBelow_keys_mono m tgt
  · exact breakWallRight_keys_mono m cpos
  · exact breakWallBelow_keys_mono m cpos

theorem popLoop_keys_mono (sigma : Nat → List Dir) :
    ∀ fuel k m cpos ds m' k',
      Maze.popLoop sigma fuel k m cpos ds = some (m', k') →
      ∀ p ∈ m.keys, p ∈ m'.keys := by
  intro fuel
  induction fuel with
  | zero =>
      intro k m cpos ds m' k' hrun
      rw [popLoop_zero] at hrun
      cases hrun
  | succ fuel ih =>
      intro k m cpos ds m' k' hrun
      match ds with
      | [] =>
          rw [popLoop_nil] at hrun
          injection hrun with hrun
          injection hrun with he1 he2
          subst he1
          exact fun p hp => hp
      | d :: ds =>
          rw [popLoop_cons] at hrun
          by_cases hex : m.cellExists (dirTarget d cpos).1 (dirTarget d cpos).2 = true
          · rw [if_pos hex] at hrun
            exact ih k m cpos ds m' k' hrun
          · rw [if_neg hex] at hrun
            rcases hcc : m.createCell (dirTarget d cpos).1 (dirTarget d cpos).2
              with ⟨m1, mnc⟩
            rw [hcc] at hrun
            rcases mnc with _ | nc
            · have hrun' : Maze.popLoop sigma fuel k m cpos ds = some (m', k') := hrun
              exact ih k m cpos ds m' k' hrun'
            · have hrun' :
                  (match Maze.popLoop sigma fuel (k + 1)
                      (dirBreak d cpos (dirTarget d cpos) m1).1
                      (dirTarget d cpos) (sigma k) with
                  | none => none
                  | some (m3, k3) => Maze.popLoop sigma fuel k3 m3 cpos ds) =
                    some (m', k') := hrun
              rcases hrec : Maze.popLoop sigma fuel (k + 1)
                  (dirBreak d cpos (dirTarget d cpos) m1).1
                  (dirTarget d cpos) (sigma k) with _ | ⟨m3, k3⟩
              · rw [hrec] at hrun'
                cases hrun'
              · rw [hrec] at hrun'
                have hrun'' : Maze.popLoop sigma fuel k3 m3 cpos ds =
                    some (m', k') := hrun'
                intro p hp
                have hp1 : p ∈ m1.keys := by
                  have := createCell_keys_mono m (dirTarget d cpos).1
                    (dirTarget d cpos).2 p hp
                  rw [hcc] at this
                  exact this
                have hp2 := dirBreak_keys_mono d cpos (dirTarget d cpos) m1 p hp1
                have hp3 := ih (k + 1) _ (dirTarget d cpos) (sigma k) m3 k3 hrec p hp2
                exact ih k3 m3 cpos ds m' k' hrun'' p hp3

/-- C6 (counterexample): the claim covers every coordinate, but for a fresh
out-of-bounds coordinate `populateFrom` does not return `true`: `createCell`
returns `None`, and `_recursivePopulate(None)` dereferences `None.x`,
raising `AttributeError` (concretely: `Maze(2, 2).populateFrom(5, 5)`). -/
theorem claim_C6_counterexample :
    (Maze.init 2 2).cellExists 5 5 = false ∧
      (Maze.init 2 2).populateFrom constDirs 3 0 5 5 =
        some (.error .attributeError) := by
  exact ⟨rfl, rfl⟩

/-- C6 (amended): if a cell already exists at `(x, y)`, `populateFrom`
returns `false` and leaves the maze unchanged; otherwise, when `(x, y)` is
in bounds, a completed run creates the seed cell, carves, and returns
`true`; for a fresh out-of-bounds coordinate the call raises
`AttributeError`. -/
theorem claim_C6_populateFrom (m : Maze) (sigma : Nat → List Dir)
    (fuel k : Nat) (x y : Int) :
    (m.cellExists x y = true →
      m.populateFrom sigma fuel k x y = some (.ok (m, false))) ∧
    (m.cellExists x y = false → m.inb (x, y) →
      ∀ res, m.populateFrom sigma fuel k x y = some res →
        ∃ m', res = .ok (m', true) ∧ m'.cellExists x y = true) ∧
    (m.cellExists x y = false → ¬m.inb (x, y) →
      m.populateFrom sigma fuel k x y = some (.error .attributeError)) := by
  refine ⟨?_, ?_, ?_⟩
  · intro hex
    unfold Maze.populateFrom
    rw [if_pos hex]
  · intro hex hin res hrun
    have hnl : lookupCell m.cells (x, y) = none := by
      rcases hl : lookupCell m.cells (x, y) with _ | c
      · rfl
      · unfold Maze.cellExists at hex
        rw [hl] at hex
        simp at hex
    have hrun1 : (match m.createCell x y with
        | (_, none) => some (Except.error PyError.attributeError)
        | (m1, some _) =>
            (m1.recursivePopulate sigma fuel k (x, y)).map fun r =>
              Except.ok (r.1, true)) = some res := by
      rw [← hrun]
      unfold Maze.populateFrom
      rw [if_neg (by rw [hex]; simp)]
    rw [@createCell_new m x y hin hnl] at hrun1
    have hrun2 : (Maze.recursivePopulate sigma fuel k
        { m.bumpBox x y with
          cells := ((x, y), ⟨x, y, true, true, false⟩) :: m.cells } (x, y)).map
        (fun r => Except.ok (r.1, true)) = some res := hrun1
    obtain ⟨⟨mm, kk⟩, hrec, hres⟩ := Option.map_eq_some'.mp hrun2
    refine ⟨mm, hres.symm, ?_⟩
    rw [cellExists_iff_mem]
    refine popLoop_keys_mono sigma fuel (k + 1) _ (x, y) (sigma k) mm kk hrec
      (x, y) ?_
    rw [Maze.keys_def]
    exact List.mem_cons_self _ _
  · intro hex hni
    unfold Maze.populateFrom
    rw [if_neg (by rw [hex]; simp)]
    rw [createCell_not_inb hni]

theorem claim_C6_populateFrom_witness :
    ((seedMaze 2 2 0 0).populateFrom constDirs 9 0 0 0 =
      some (.ok (seedMaze 2 2 0 0, false))) ∧
    mazeTwo.cellExists 0 0 = true ∧
    ((Maze.init 2 2).populateFrom constDirs 3 0 5 5 =
      some (.error .attributeError)) := by
  obtain ⟨h1, -, -⟩ := claim_C6_populateFrom (seedMaze 2 2 0 0) constDirs 9 0 0 0
  obtain ⟨-, h2, -⟩ := claim_C6_populateFrom (Maze.init 2 2) constDirs 30 0 0 0
  obtain ⟨-, -, h3⟩ := claim_C6_populateFrom (Maze.init 2 2) constDirs 3 0 5 5
  refine ⟨h1 (by decide), ?_, h3 (by decide) (by decide)⟩
  obtain ⟨m', heq, hex⟩ := h2 (by decide) (by decide) (.ok (mazeTwo, true)) mazeTwo_run
  cases heq
  exact hex

/-- C8 (counterexample): the 1x1 maze populated from `(0, 0)` has a single
cell with both walls present, but its rendered string is not `"_|\n"`: the
render iterates from one row above and one column left of the populated
cell, producing the 2x2 character block `"  __\n |_|\n"`. -/
theorem claim_C8_counterexample :
    (Maze.init 1 1).populateFrom constDirs 6 0 0 0 =
      some (.ok (seedMaze 1 1 0 0, true)) ∧
    (seedMaze 1 1 0 0).str = .ok "  __\n |_|\n" ∧
    "  __\n |_|\n" ≠ "_|\n" := by
  refine ⟨rfl, rfl, by decide⟩

theorem popLoop_oneone (sigma : Nat → List Dir) :
    ∀ ds fuel k, ds.length < fuel →
      Maze.popLoop sigma fuel k (seedMaze 1 1 0 0) (0, 0) ds =
        some (seedMaze 1 1 0 0, k) := by
  intro ds
  induction ds with
  | nil =>
      intro fuel k h
      match fuel, h with
      | fuel + 1, _ => exact popLoop_nil sigma fuel k _ _
  | cons d ds ih =>
      intro fuel k h
      match fuel, h with
      | fuel + 1, h =>
          have hstep := ih fuel k (Nat.lt_of_succ_lt_succ h)
          cases d
          · exact hstep
          · exact hstep
          · exact hstep
          · exact hstep

/-- C8 (amended): a 1x1 grid populated from `(0, 0)` (any sample stream,
enough fuel for the four skipped directions) yields exactly one cell, at
`(0, 0)`, with both its right and below walls present, and renders as
`"  __\n |_|\n"` — the cell's own two-character fragment is `"_|"`, but the
full render includes the virtual top row and left column margin. -/
theorem claim_C8_one_by_one (sigma : Nat → List Dir)
    (hperm : ∀ n, (sigma n).Perm allDirs) (fuel k : Nat) (hfuel : 5 ≤ fuel) :
    (Maze.init 1 1).populateFrom sigma fuel k 0 0 =
      some (.ok (seedMaze 1 1 0 0, true)) ∧
    (seedMaze 1 1 0 0).cells = [((0, 0), ⟨0, 0, true, true, false⟩)] ∧
    (⟨0, 0, true, true, false⟩ : Maze.Cell).hasWallRight = true ∧
    (⟨0, 0, true, true, false⟩ : Maze.Cell).hasWallBelow = true ∧
    (seedMaze 1 1 0 0).str = .ok "  __\n |_|\n" := by
  have hlen : (sigma k).length = 4 := (hperm k).length_eq
  have hrun := popLoop_oneone sigma (sigma k) fuel (k + 1) (by omega)
  have heq : (Maze.init 1 1).populateFrom sigma fuel k 0 0 =
      (Maze.popLoop sigma fuel (k + 1) (seedMaze 1 1 0 0) (0, 0)
        (sigma k)).map (fun r => .ok (r.1, true)) := rfl
  rw [heq, hrun]
  exact ⟨rfl, rfl, rfl, rfl, rfl⟩

theorem claim_C8_one_by_one_witness :
    (Maze.init 1 1).populateFrom constDirs 5 0 0 0 =
      some (.ok (seedMaze 1 1 0 0, true)) ∧
    (seedMaze 1 1 0 0).str = .ok "  __\n |_|\n" := by
  obtain ⟨h1, h2, h3, h4, h5⟩ :=
    claim_C8_one_by_one constDirs constDirs_perm 5 0 (by omega)
  exact ⟨h1, h5⟩

/-- C1: for positive bounds and an in-bounds seed on the initially empty
maze, a completed `populateFrom` run returns `true`, stores a real cell at
every coordinate of `[0, maxWidth) x [0, maxHeight)`, breaks exactly one
wall fewer than the number of populated cells, and the passage graph of
carved walls is connected over the populated cells and acyclic — a spanning
tree.  This holds for every permutation stream the random sampler can
produce. -/
theorem claim_C1_spanning_tree (w h x y : Int) (sigma : Nat → List Dir)
    (fuel k : Nat) (m' : Maze) (b : Bool)
    (hperm : ∀ n, (sigma n).Perm allDirs)
    (hx0 : 0 ≤ x) (hxw : x < w) (hy0 : 0 ≤ y) (hyh : y < h)
    (hrun : (Maze.init w h).populateFrom sigma fuel k x y = some (.ok (m', b))) :
    b = true ∧
    (∀ a bb : Int, 0 ≤ a → a < w → 0 ≤ bb → bb < h →
      ∃ c, lookupCell m'.cells (a, bb) = some c ∧ c.empty = false) ∧
    brokenWallCount m' + 1 = m'.cells.length ∧
    allConnected m' ∧
    (passageGraph m').IsAcyclic := by
  obtain ⟨mm, hres, hinv, hcnt, hconn, hacy, hw', hh', hcov⟩ :=
    populateFrom_init_run hperm hx0 hxw hy0 hyh hrun
  injection hres with h1
  injection h1 with h2 h3
  subst h2
  subst h3
  refine ⟨rfl, ?_, hcnt, hconn, hacy⟩
  intro a bb ha haw hb hbh
  have hex := hcov a bb ha haw hb hbh
  rcases hl : lookupCell m'.cells (a, bb) with _ | c
  · unfold Maze.cellExists at hex
    rw [hl] at hex
    simp at hex
  · exact ⟨c, rfl, (hinv.real _ c hl).2.2⟩

theorem claim_C1_spanning_tree_witness :
    brokenWallCount mazeTwo + 1 = mazeTwo.cells.length ∧
    (∃ c, lookupCell mazeTwo.cells (1, 1) = some c ∧ c.empty = false) ∧
    (passageGraph mazeTwo).IsAcyclic := by
  obtain ⟨hb, hcov, hcnt, hconn, hacy⟩ :=
    claim_C1_spanning_tree 2 2 0 0 constDirs 30 0 mazeTwo true
      (fun n => List.Perm.refl _) (by omega) (by omega) (by omega) (by omega)
      mazeTwo_run
  exact ⟨hcnt, hcov 1 1 (by omega) (by omega) (by omega) (by omega), hacy⟩

/-- C7: in every state reachable by `createCell` and `populateFrom` calls,
a stored cell in the rightmost populated column keeps its right wall and
one in the bottom populated row keeps its below wall; for a cell in the
leftmost populated column (or top populated row) the virtual cell obtained
by looking one step further out reports the corresponding wall present.
No outward-facing boundary wall is ever broken. -/
theorem claim_C7_boundary_solidity {m : Maze} (hr : ReachableMaze m)
    {x y : Int} {c : Maze.Cell} (hl : lookupCell m.cells (x, y) = some c) :
    ((∀ p ∈ m.keys, p.1 ≤ x) → c.wallRight = true) ∧
    ((∀ p ∈ m.keys, p.2 ≤ y) → c.wallBelow = true) ∧
    ((∀ p ∈ m.keys, x ≤ p.1) → (m.getCell (x - 1) y).hasWallRight = true) ∧
    ((∀ p ∈ m.keys, y ≤ p.2) → (m.getCell x (y - 1)).hasWallBelow = true) := by
  have hinv := reachable_inv hr
  refine ⟨?_, ?_, ?_, ?_⟩
  · intro hmax
    cases hw : c.wallRight
    · exfalso
      have hce := hinv.wallR (x, y) c hl hw
      rw [cellExists_iff_mem] at hce
      have h2 : x + 1 ≤ x := hmax _ hce
      omega
    · rfl
  · intro hmax
    cases hw : c.wallBelow
    · exfalso
      have hce := hinv.wallB (x, y) c hl hw
      rw [cellExists_iff_mem] at hce
      have h2 : y + 1 ≤ y := hmax _ hce
      omega
    · rfl
  · intro hmin
    have hnl : lookupCell m.cells (x - 1, y) = none := by
      rcases hl2 : lookupCell m.cells (x - 1, y) with _ | c2
      · rfl
      · exfalso
        have hm2 : (x - 1, y) ∈ m.keys := by
          rw [Maze.keys_def]
          exact List.mem_map.mpr ⟨_, lookupCell_mem hl2, rfl⟩
        have h2 : x ≤ x - 1 := hmin _ hm2
        omega
    rw [getCell_eq_empty_of_none hnl, emptyCell_hasWallRight,
      show (x - 1 + 1 : Int) = x from by omega]
    unfold Maze.cellExists
    rw [show (((x : Int), (y : Int)) : Int × Int) = (x, y) from rfl, hl]
    rfl
  · intro hmin
    have hnl : lookupCell m.cells (x, y - 1) = none := by
      rcases hl2 : lookupCell m.cells (x, y - 1) with _ | c2
      · rfl
      · exfalso
        have hm2 : (x, y - 1) ∈ m.keys := by
          rw [Maze.keys_def]
          exact List.mem_map.mpr ⟨_, lookupCell_mem hl2, rfl⟩
        have h2 : y ≤ y - 1 := hmin _ hm2
        omega
    rw [getCell_eq_empty_of_none hnl, emptyCell_hasWallBelow,
      show (y - 1 + 1 : Int) = y from by omega]
    unfold Maze.cellExists
    rw [show (((x : Int), (y : Int)) : Int × Int) = (x, y) from rfl, hl]
    rfl

theorem claim_C7_boundary_solidity_witness :
    (⟨1, 0, false, true, false⟩ : Maze.Cell).wallRight = true ∧
    (mazeTwo.getCell (0 - 1) 0).hasWallRight = true := by
  have hreach : ReachableMaze mazeTwo :=
    ReachableMaze.populate (Maze.init 2 2) mazeTwo constDirs 30 0 0 0 true
      constDirs_perm (ReachableMaze.init 2 2) mazeTwo_run
  obtain ⟨h1, -, -, -⟩ := claim_C7_boundary_solidity hreach
    (show lookupCell mazeTwo.cells (1, 0) = some ⟨1, 0, false, true, false⟩
      from rfl)
  obtain ⟨-, -, h3, -⟩ := claim_C7_boundary_solidity hreach
    (show lookupCell mazeTwo.cells (0, 0) = some ⟨0, 0, true, false, false⟩
      from rfl)
  exact ⟨h1 (by decide), h3 (by decide)⟩
